import Mathlib

/-!
Verification development for the agent-configuration resolution and
execution-dispatch pipeline of the jaf-agent-builder repository.

The definitions below are a shallow embedding of the TypeScript sources:

* `src/lib/jaf/provider.ts` — `schemaToOpenAIParams`, `getProviderFromModel`;
* the agent factory (`createJAFAgentFromDB`, `loadToolsForAgent`,
  `createToolFromDB`, `parseZodSchema`, `parseZodType`);
* the built-in tool registry (`toolRegistry`, `getToolsByIds`);
* the tool route handlers (`PUT`/`DELETE` on `/api/tools/[id]`);
* `src/lib/jaf/runner.ts` — `runAgent`, `streamAgent`,
  `createExecutionRecord`, `updateExecutionRecord`;
* the word-chunking of `streamJAFAgent` and the `\x7b\x7bkey\x7d\x7d`
  instruction-template renderer.

JavaScript runtime values are modelled explicitly: JSON documents as an
inductive `JsonVal`, JS truthiness as `jsTruthy`, `JSON.parse` of a stored
text field as an oracle (`StoredDoc`), thrown exceptions as `Except`, and
`Date.now()` readings as explicit integer parameters.  External I/O (the
HTTP call performed by the model provider, the `run()` of the external JAF
framework) is abstracted as an `Except String String` outcome parameter.
-/

namespace JafVerify

/-! ### JSON values

JSON documents (results of `JSON.parse`, contents of JSONB columns).  The
field and element lists are separate inductives of the same mutual family so
that every traversal below is a structural recursion, which keeps all
definitions kernel-computable.  Keys of a parsed JSON object are unique, so
first-match lookup agrees with JS property access. -/

mutual

inductive JsonVal : Type where
  | jnull : JsonVal
  | jbool (b : Bool) : JsonVal
  | jnum (n : Int) : JsonVal
  | jstr (s : String) : JsonVal
  | jarr (elems : JElems) : JsonVal
  | jobj (fields : JFields) : JsonVal
  deriving DecidableEq, Repr

inductive JFields : Type where
  | nil : JFields
  | cons (key : String) (val : JsonVal) (rest : JFields) : JFields
  deriving DecidableEq, Repr

inductive JElems : Type where
  | nil : JElems
  | cons (val : JsonVal) (rest : JElems) : JElems
  deriving DecidableEq, Repr

end

/-- Property read on a plain JSON object (`o[key]`, `undefined` = `none`). -/
def lookupField : JFields → String → Option JsonVal
  | .nil, _ => none
  | .cons k v rest, key => if k == key then some v else lookupField rest key

/-- JavaScript truthiness of a JSON value. -/
def jsTruthy : JsonVal → Bool
  | .jnull => false
  | .jbool b => b
  | .jnum n => n != 0
  | .jstr s => s != ""
  | .jarr _ => true
  | .jobj _ => true

/-- Property read on an arbitrary non-null JSON value: only objects have
properties, everything else yields `undefined`. -/
def jsGetField (v : JsonVal) (key : String) : Option JsonVal :=
  match v with
  | .jobj l => lookupField l key
  | _ => none

/-! ### Runtime (Zod) schemas

The runtime-schema values that actually occur in the pipeline: the
combinators used by the built-in tool parameter schemas in `jaf-types.ts`
(`z.string`, `z.number`, `z.boolean`, `z.array`, `z.object`, `.optional()`,
`z.record`, `z.union`, `z.enum`, `z.unknown`) plus `zcast`, which models a
raw JSON value (or `undefined`, as `none`) that the factory unsoundly casts
to a Zod schema (`parseZodSchema`'s early return of a value with a truthy
`_def` field, and the `parameters` member of a stored tool-schema blob). -/

mutual

inductive ZodTy : Type where
  | zstring : ZodTy
  | znumber : ZodTy
  | zboolean : ZodTy
  | zarray (elem : ZodTy) : ZodTy
  | zobject (shape : ZShape) : ZodTy
  | zoptional (inner : ZodTy) : ZodTy
  | zunion (opts : ZOpts) : ZodTy
  | zenum (vals : List String) : ZodTy
  | zrecord : ZodTy
  | zunknown : ZodTy
  | zcast (raw : Option JsonVal) : ZodTy
  deriving DecidableEq, Repr

inductive ZShape : Type where
  | nil : ZShape
  | cons (key : String) (field : ZodTy) (rest : ZShape) : ZShape
  deriving DecidableEq, Repr

inductive ZOpts : Type where
  | nil : ZOpts
  | cons (head : ZodTy) (rest : ZOpts) : ZOpts
  deriving DecidableEq, Repr

end

/-! ### Vendor-parameter documents

The JSON-Schema-like documents produced by `schemaToOpenAIParams`.  Each
constructor records which `type` tag the produced document carries. -/

mutual

inductive OAIParams : Type where
  | ostring : OAIParams
  | onumber : OAIParams
  | oboolean : OAIParams
  | oarray (items : OAIParams) : OAIParams
  | oobject (properties : OFields) (required : List String) : OAIParams
  | oanyOf (alts : OAlts) : OAIParams
  | oenum (vals : List String) : OAIParams
  | oenumCast (vals : Option JsonVal) : OAIParams
  | oopenObject : OAIParams
  deriving DecidableEq, Repr

inductive OFields : Type where
  | nil : OFields
  | cons (key : String) (val : OAIParams) (rest : OFields) : OFields
  deriving DecidableEq, Repr

inductive OAlts : Type where
  | nil : OAlts
  | cons (head : OAIParams) (rest : OAlts) : OAlts
  deriving DecidableEq, Repr

end

/-- Whether the document's root carries `type: object` (the `json.type !==
'object'` test of `schemaToOpenAIParams`; an `anyOf` document has no `type`
member at all, so it does not count). -/
def rootTypeIsObject : OAIParams → Bool
  | .oobject _ _ => true
  | .oopenObject => true
  | _ => false

/-! ### Resolution of unsoundly-cast raw JSON "schemas"

The `resolve` helper of `schemaToOpenAIParams` reads `s._def.typeName`.
When `s` is a raw JSON value this walks plain JSON data: reading `._def` of
`null`/`undefined` throws a `TypeError` (modelled as `Except.error ()`),
reading it on any other non-object yields `undefined` and hence the default
`\x7b type: 'string' \x7d` case.  A crafted object with a `_def` member is
dispatched on its `typeName` string exactly as the source `switch` does. -/

mutual

def resolveCastVal : JsonVal → Except Unit OAIParams
  | .jnull => .error ()
  | .jobj l => castDefSearch l
  | _ => .ok .ostring

/-- Walks the object's fields for `_def`; a missing `_def` means `typeName`
is `undefined` and the switch falls through to `\x7b type: 'string' \x7d`. -/
def castDefSearch : JFields → Except Unit OAIParams
  | .nil => .ok .ostring
  | .cons k v rest => if k == "_def" then castByDef v else castDefSearch rest

def castByDef : JsonVal → Except Unit OAIParams
  | .jobj dl =>
    match lookupField dl "typeName" with
    | some (.jstr "ZodString") => .ok .ostring
    | some (.jstr "ZodNumber") => .ok .onumber
    | some (.jstr "ZodBoolean") => .ok .oboolean
    | some (.jstr "ZodArray") => castArraySearch dl
    | some (.jstr "ZodObject") => .error ()
    | some (.jstr "ZodOptional") => castInnerSearch dl
    | some (.jstr "ZodUnion") => castOptionsSearch dl
    | some (.jstr "ZodEnum") => .ok (.oenumCast (lookupField dl "values"))
    | some (.jstr "ZodRecord") => .ok .oopenObject
    | _ => .ok .ostring
  | _ => .ok .ostring

/-- For `typeName = 'ZodArray'` the source recurses on `def.type`; if that
member is absent, `resolve(undefined)` reads `._def` of `undefined` and
throws.  A `ZodObject` cast always throws earlier: `def.shape` is plain JSON
data, and calling it as a function is a `TypeError`. -/
def castArraySearch : JFields → Except Unit OAIParams
  | .nil => .error ()
  | .cons k v rest =>
    if k == "type" then
      do let items ← resolveCastVal v; .ok (.oarray items)
    else castArraySearch rest

def castInnerSearch : JFields → Except Unit OAIParams
  | .nil => .error ()
  | .cons k v rest => if k == "innerType" then resolveCastVal v else castInnerSearch rest

/-- For `typeName = 'ZodUnion'` the source evaluates
`def.options?.map(resolve) || []`: a nullish `options` yields `anyOf: []`,
a non-array non-nullish `options` has no `.map` method and throws, and an
array maps `resolve` over its elements. -/
def castOptionsSearch : JFields → Except Unit OAIParams
  | .nil => .ok (.oanyOf .nil)
  | .cons k v rest =>
    if k == "options" then
      match v with
      | .jnull => .ok (.oanyOf .nil)
      | .jarr es => do let alts ← castAltList es; .ok (.oanyOf alts)
      | _ => .error ()
    else castOptionsSearch rest

def castAltList : JElems → Except Unit OAlts
  | .nil => .ok .nil
  | .cons v rest => do
    let a ← resolveCastVal v
    let tl ← castAltList rest
    .ok (.cons a tl)

end

/-- Resolution of a cast value, including the `undefined` case (reading
`._def` of `undefined` throws). -/
def resolveCast : Option JsonVal → Except Unit OAIParams
  | none => .error ()
  | some v => resolveCastVal v

/-- The `isOptional` test of a raw JSON field:
`(field).isOptional?.() || (field)._def?.typeName === 'ZodOptional'`.
Raw JSON has no `isOptional` method, so only the `_def.typeName` comparison
remains.  (Such a field can only occur inside a genuine `z.object` shape,
which the pipeline never builds from raw JSON, so this case is inert.) -/
def castIsOptional (raw : Option JsonVal) : Bool :=
  match raw with
  | some (.jobj l) =>
    match lookupField l "_def" with
    | some (.jobj dl) => lookupField dl "typeName" == some (.jstr "ZodOptional")
    | _ => false
  | _ => false

/-! ### The `isOptional` check

The source computes `field.isOptional?.()`, i.e. Zod's "does the schema
accept `undefined`" test: true for `.optional()` wrappers and for
`z.unknown()` (which accepts anything), propagated through unions. -/

mutual

def isOptionalB : ZodTy → Bool
  | .zoptional _ => true
  | .zunknown => true
  | .zunion opts => anyOptional opts
  | .zcast raw => castIsOptional raw
  | _ => false

def anyOptional : ZOpts → Bool
  | .nil => false
  | .cons t rest => isOptionalB t || anyOptional rest

end

/-- The `required` list synthesized by the `ZodObject` case: the keys whose
fields are not optional, in shape order. -/
def requiredOf : ZShape → List String
  | .nil => []
  | .cons k f rest => if isOptionalB f then requiredOf rest else k :: requiredOf rest

/-! ### The `resolve` helper of `schemaToOpenAIParams` -/

mutual

def resolveZ : ZodTy → Except Unit OAIParams
  | .zstring => .ok .ostring
  | .znumber => .ok .onumber
  | .zboolean => .ok .oboolean
  | .zarray t =>
    match resolveZ t with
    | .error e => .error e
    | .ok items => .ok (.oarray items)
  | .zobject shape =>
    match resolveShape shape with
    | .error e => .error e
    | .ok props => .ok (.oobject props (requiredOf shape))
  | .zoptional t => resolveZ t
  | .zunion opts =>
    match resolveAlts opts with
    | .error e => .error e
    | .ok alts => .ok (.oanyOf alts)
  | .zenum vals => .ok (.oenum vals)
  | .zrecord => .ok .oopenObject
  | .zunknown => .ok .ostring
  | .zcast raw => resolveCast raw

def resolveShape : ZShape → Except Unit OFields
  | .nil => .ok .nil
  | .cons k f rest =>
    match resolveZ f with
    | .error e => .error e
    | .ok v =>
      match resolveShape rest with
      | .error e => .error e
      | .ok tl => .ok (.cons k v tl)

def resolveAlts : ZOpts → Except Unit OAlts
  | .nil => .ok .nil
  | .cons t rest =>
    match resolveZ t with
    | .error e => .error e
    | .ok v =>
      match resolveAlts rest with
      | .error e => .error e
      | .ok tl => .ok (.cons v tl)

end

/-- Conversion of a runtime schema to an OpenAI tool-parameter document
(`schemaToOpenAIParams` in `provider.ts`): run `resolve`, wrap a non-object
root as `\x7b type: object, properties: \x7b input: json \x7d, required: [] \x7d`, and
catch any thrown error with the empty open object
`\x7b type: object, properties: \x7b\x7d, required: [] \x7d`. -/
def schemaToOpenAIParams (s : ZodTy) : OAIParams :=
  match resolveZ s with
  | .ok j => if rootTypeIsObject j then j else .oobject (.cons "input" j .nil) []
  | .error _ => .oobject .nil []

/-! ### Building runtime schemas from JSON descriptions

`parseZodType` in the agent factory: a recursive switch on the `type` tag.
Lookups that feed a recursive call are written as structural walks over the
field list (`itemsSearch`, `propsShapeSearch`), which is extensionally the
same as "look up, then recurse".  Two JS subtleties are inlined:
`parseZodType(typeObj.items || \x7b\x7d)` applied to the `\x7b\x7d` default returns
`z.unknown()` (no `type` member), and `Object.entries` of a string yields
index/character pairs whose values are bare one-character strings, for which
`parseZodType` returns `z.unknown()` as well. -/

/-- Entries of `Object.entries(s)` for a string value `s`, already mapped
through `parseZodType` (each value is a bare string, hence `z.unknown()`). -/
def charIndexShape (i : Nat) : List Char → ZShape
  | [] => .nil
  | _ :: cs => .cons (toString i) .zunknown (charIndexShape (i + 1) cs)

mutual

def parseZodType : JsonVal → ZodTy
  | .jobj l =>
    match lookupField l "type" with
    | some (.jstr "string") => .zstring
    | some (.jstr "number") => .znumber
    | some (.jstr "boolean") => .zboolean
    | some (.jstr "array") => .zarray (itemsSearch l)
    | some (.jstr "object") =>
      match propsShapeSearch l with
      | some sh => .zobject sh
      | none => .zrecord
    | _ => .zunknown
  | _ => .zunknown

/-- Element type of the `array` case: `parseZodType(typeObj.items || \x7b\x7d)`. -/
def itemsSearch : JFields → ZodTy
  | .nil => .zunknown
  | .cons k v rest =>
    if k == "items" then (if jsTruthy v then parseZodType v else .zunknown)
    else itemsSearch rest

/-- Shape of the `object` case when `typeObj.properties` is truthy;
`none` when the member is absent or falsy (the source then uses
`z.record(z.unknown())`). -/
def propsShapeSearch : JFields → Option ZShape
  | .nil => none
  | .cons k v rest =>
    if k == "properties" then (if jsTruthy v then some (entriesShape v) else none)
    else propsShapeSearch rest

/-- Shape built from `Object.entries(properties)` with every value mapped
through `parseZodType`.  Entries of an array are index/value pairs; entries
of numbers and booleans are empty. -/
def entriesShape : JsonVal → ZShape
  | .jobj fl => fieldsShape fl
  | .jstr s => charIndexShape 0 s.data
  | .jarr es => elemsShape 0 es
  | _ => .nil

def fieldsShape : JFields → ZShape
  | .nil => .nil
  | .cons k v rest => .cons k (parseZodType v) (fieldsShape rest)

def elemsShape (i : Nat) : JElems → ZShape
  | .nil => .nil
  | .cons v rest => .cons (toString i) (parseZodType v) (elemsShape (i + 1) rest)

end

/-- Object branch shared by `parseZodSchema`: `schema.type === 'object' &&
schema.properties` builds a `z.object` from the entries, anything else is
`z.unknown()`. -/
def schemaObjectShape (l : JFields) : ZodTy :=
  if lookupField l "type" == some (.jstr "object") then
    match propsShapeSearch l with
    | some sh => .zobject sh
    | none => .zunknown
  else .zunknown

/-- The factory's `parseZodSchema` applied to an already-parsed JSON value:
a falsy argument gives `z.unknown()`; a value with a truthy `_def` member is
returned unchanged, unsoundly cast to a Zod schema (`zcast`); an object
description with `type: 'object'` and truthy `properties` becomes a
`z.object`; everything else is `z.unknown()`.  Modelling limit: when the
argument is itself a bare string (a doubly-encoded document) the source
re-parses it once with `JSON.parse` — throwing on malformed text, and
applying the object check to the parsed value on valid text.  This model
carries no parse oracle for JSON string values, so that branch is not
representable; the `.jstr` case is conservatively mapped to `z.unknown()`,
and every theorem below keeps the branch out of reach: `RowDocsParse`
requires a parameters document that is not a bare string, and the
round-trip claims apply this function only to object encodings. -/
def parseZodSchemaV (v : JsonVal) : ZodTy :=
  if jsTruthy v = false then .zunknown
  else
    match v with
    | .jobj l =>
      match lookupField l "_def" with
      | some d => if jsTruthy d then .zcast (some (.jobj l)) else schemaObjectShape l
      | none => schemaObjectShape l
    | _ => .zunknown

/-! ### Provider selection (`getProviderFromModel` in `provider.ts`) -/

inductive Provider : Type where
  | openai : Provider
  | anthropic : Provider
  | google : Provider
  | litellm : Provider
  deriving DecidableEq, Repr

/-- The four environment variables read by `getProviderFromModel`; `none`
models an unset variable. -/
structure ProviderEnv where
  useLitellm : Option String := none
  npUseLitellm : Option String := none
  litellmUrl : Option String := none
  npLitellmUrl : Option String := none
  deriving DecidableEq, Repr

/-- Truthiness of an environment variable (unset or empty is falsy). -/
def envStrTruthy : Option String → Bool
  | none => false
  | some s => s != ""

/-- The gateway test: `USE_LITELLM === 'true' || NEXT_PUBLIC_USE_LITELLM ===
'true' || LITELLM_URL || NEXT_PUBLIC_LITELLM_URL`. -/
def litellmConfigured (env : ProviderEnv) : Bool :=
  env.useLitellm == some "true" || env.npUseLitellm == some "true" ||
    envStrTruthy env.litellmUrl || envStrTruthy env.npLitellmUrl

/-- Prefix test used for substring containment. -/
def startsWithSeq : List Char → List Char → Bool
  | [], _ => true
  | _ :: _, [] => false
  | n :: ns, h :: hs => n == h && startsWithSeq ns hs

/-- Containment of a character sequence (JS `String.includes`). -/
def containsSeq (needle : List Char) : List Char → Bool
  | [] => needle.isEmpty
  | c :: rest => startsWithSeq needle (c :: rest) || containsSeq needle rest

/-- JS `hay.includes(needle)`. -/
def containsSub (hay needle : String) : Bool := containsSeq needle.data hay.data

/-- The characters before the first `/` — `model.split('/')[0]`. -/
def firstSegment (m : String) : String := String.mk (m.data.takeWhile (fun c => c != '/'))

def recognizedVendors : List String :=
  ["anthropic", "gemini", "cohere", "replicate", "together_ai", "azure", "openrouter"]

/-- Provider selection from a model name (`getProviderFromModel`). -/
def getProviderFromModel (env : ProviderEnv) (model : String) : Provider :=
  if litellmConfigured env then .litellm
  else if model.data.contains '/' && recognizedVendors.contains (firstSegment model) then
    .litellm
  else if containsSub model "gpt" then .openai
  else if containsSub model "claude" then .anthropic
  else if containsSub model "gemini" then .google
  else if containsSub model "llama" || containsSub model "mixtral" ||
      containsSub model "mistral" then .litellm
  else .openai

/-- The selection procedure exactly as the specification words it: an
ordered rule list, first match wins, default `openai`.  Rule 1: the
environment forces the unified gateway.  Rule 2: a recognized vendor prefix
before `/`.  Rules 3–6: substring tests on the model name.  This definition
follows the specification text and is compared against
`getProviderFromModel`, which follows the source. -/
def specSelectionRules (env : ProviderEnv) (model : String) : List (Bool × Provider) :=
  [ (litellmConfigured env, .litellm),
    (model.data.contains '/' && recognizedVendors.contains (firstSegment model), .litellm),
    (containsSub model "gpt", .openai),
    (containsSub model "claude", .anthropic),
    (containsSub model "gemini", .google),
    (containsSub model "llama" || containsSub model "mixtral" ||
       containsSub model "mistral", .litellm) ]

def firstMatchProvider : List (Bool × Provider) → Provider
  | [] => .openai
  | (cond, p) :: rest => if cond then p else firstMatchProvider rest

def selectProviderSpec (env : ProviderEnv) (model : String) : Provider :=
  firstMatchProvider (specSelectionRules env model)

/-! ### Instruction templating

The factory wraps the chosen instruction template in
`instructions.replace(/\x7b\x7b(\w+)\x7d\x7d/g, (match, key) => context?.[key] || match)`.
`renderLoop` is a faithful scanner for that global regex replacement: at a
`\x7b\x7b` it greedily munches word characters (`\w` = ASCII alphanumeric or `_`,
at least one required) and requires a closing `\x7d\x7d`; on a failed attempt the
consumed characters are emitted verbatim and scanning resumes at the first
position where a new match could start (no match can begin inside a run of
word characters or at a lone closing brace, so skipping them is exact).  A
context value replaces the match only when truthy; an empty-string value or
a missing key leaves the placeholder text unchanged. -/

def isWordChar (c : Char) : Bool := c.isAlphanum || c == '_'

/-- First-match lookup in the run context (a string-valued field map). -/
def lookupCtx : List (String × String) → String → Option String
  | [], _ => none
  | (k, v) :: rest, key => if k == key then some v else lookupCtx rest key

/-- Replacement text for a complete `\x7b\x7bkey\x7d\x7d` match whose reversed key
characters are `acc`: the context value if truthy, else the match itself. -/
def substOf (ctx : List (String × String)) (acc : List Char) : List Char :=
  match lookupCtx ctx (String.mk acc.reverse) with
  | some v => if v == "" then '{' :: '{' :: acc.reverse ++ ['}', '}'] else v.data
  | none => '{' :: '{' :: acc.reverse ++ ['}', '}']

/-- Scanner state: `none` = plain scanning; `some acc` = inside a candidate
`\x7b\x7b`-match with reversed word characters `acc` consumed so far. -/
def renderLoop (ctx : List (String × String)) : List Char → Option (List Char) → List Char
  | [], none => []
  | [], some acc => '{' :: '{' :: acc.reverse
  | '{' :: '{' :: rest, none => renderLoop ctx rest (some [])
  | c :: rest, none => c :: renderLoop ctx rest none
  | '}' :: '}' :: tail, some acc =>
    match acc with
    | _ :: _ => substOf ctx acc ++ renderLoop ctx tail none
    | [] => '{' :: '{' :: '}' :: '}' :: renderLoop ctx tail none
  | '}' :: rest, some acc => '{' :: '{' :: acc.reverse ++ '}' :: renderLoop ctx rest none
  | '{' :: '{' :: rest2, some acc =>
    match acc with
    | [] => '{' :: '{' :: renderLoop ctx rest2 (some [])
    | _ :: _ => '{' :: '{' :: acc.reverse ++ renderLoop ctx rest2 (some [])
  | '{' :: rest, some acc =>
    match acc with
    | [] => '{' :: renderLoop ctx rest (some [])
    | _ :: _ => '{' :: '{' :: acc.reverse ++ '{' :: renderLoop ctx rest none
  | c :: rest, some acc =>
    if isWordChar c then renderLoop ctx rest (some (c :: acc))
    else '{' :: '{' :: acc.reverse ++ c :: renderLoop ctx rest none

/-- Rendering of an instruction template against a run context. -/
def renderInstructions (template : String) (ctx : List (String × String)) : String :=
  String.mk (renderLoop ctx template.data none)

/-- Template choice in `createJAFAgentFromDB`:
`dbAgent.instructions || dbAgent.systemPrompt || 'You are a helpful
assistant.'` (both columns are non-null text; the empty string is falsy). -/
def chooseInstructionTemplate (instructions systemPrompt : String) : String :=
  if instructions != "" then instructions
  else if systemPrompt != "" then systemPrompt
  else "You are a helpful assistant."

/-! ### Stored tool rows and the tool resolver

A `Tool` row as the factory reads it.  JSONB fields that the source guards
with `typeof === 'string'` are modelled as a `StoredDoc`: either an
already-parsed JSON value or a string field together with its `JSON.parse`
outcome (`none` = the text does not parse; the raw text itself is carried
only for the truthiness test).  A nullable or empty (falsy) `schema` or
`implementation` column is modelled as `none`.  `new Function` compilation
of a stored implementation body either succeeds (`compilable`) or throws
(`uncompilable`). -/

inductive StoredDoc : Type where
  | sval (v : JsonVal) : StoredDoc
  | sstr (raw : String) (parsed : Option JsonVal) : StoredDoc
  deriving DecidableEq, Repr

/-- The `typeof x === 'string' ? JSON.parse(x) : x` idiom; a failing parse
throws. -/
def jsonParseDoc : StoredDoc → Except Unit JsonVal
  | .sval v => .ok v
  | .sstr _ (some v) => .ok v
  | .sstr _ none => .error ()

def storedDocTruthy : StoredDoc → Bool
  | .sval v => jsTruthy v
  | .sstr raw _ => raw != ""

inductive ImplSrc : Type where
  | compilable (tag : String) : ImplSrc
  | uncompilable (tag : String) : ImplSrc
  deriving DecidableEq, Repr

structure DBTool where
  id : String
  name : String
  description : Option String := none
  schema : Option StoredDoc := none
  parameters : StoredDoc
  implementation : Option ImplSrc := none
  isBuiltin : Bool := false
  deriving DecidableEq, Repr

/-- The `execute` member of a resolved tool: a fixed built-in
implementation, a function compiled from a stored body, or the default
implementation that echoes the call arguments. -/
inductive ExecBehavior : Type where
  | builtinImpl (key : String) : ExecBehavior
  | compiledImpl (tag : String) : ExecBehavior
  | echoArgs (toolName : String) : ExecBehavior
  deriving DecidableEq, Repr

/-- A resolved tool definition (`\x7b schema: \x7b name, description, parameters \x7d,
execute \x7d`). -/
structure ToolDef where
  name : String
  description : String
  parameters : ZodTy
  execute : ExecBehavior
  deriving DecidableEq, Repr

inductive ToolLogEv : Type where
  | implLoadError (toolId : String) : ToolLogEv
  deriving DecidableEq, Repr

/-! The fixed built-in registry (`toolRegistry` in `jaf-tools.ts`), with the
parameter schemas of `jaf-types.ts`. -/

def calculatorTool : ToolDef :=
  { name := "calculator", description := "Perform mathematical calculations",
    parameters := .zobject (.cons "expression" .zstring .nil),
    execute := .builtinImpl "calculator" }

def webSearchTool : ToolDef :=
  { name := "webSearch", description := "Search the web for information",
    parameters := .zobject (.cons "query" .zstring (.cons "limit" (.zoptional .znumber) .nil)),
    execute := .builtinImpl "webSearch" }

def weatherTool : ToolDef :=
  { name := "weatherFetch", description := "Get weather information",
    parameters := .zobject (.cons "location" .zstring .nil),
    execute := .builtinImpl "weatherFetch" }

def jsonParserTool : ToolDef :=
  { name := "jsonParser", description := "Parse and manipulate JSON data",
    parameters := .zobject (.cons "json" .zstring (.cons "path" (.zoptional .zstring) .nil)),
    execute := .builtinImpl "jsonParser" }

def emailSenderTool : ToolDef :=
  { name := "emailSender", description := "Send emails",
    parameters := .zobject (.cons "to" .zstring
      (.cons "subject" .zstring (.cons "body" .zstring .nil))),
    execute := .builtinImpl "emailSender" }

def dataQueryTool : ToolDef :=
  { name := "dataQuery", description := "Query databases",
    parameters := .zobject (.cons "query" .zstring
      (.cons "database" (.zoptional .zstring) .nil)),
    execute := .builtinImpl "dataQuery" }

def translatorTool : ToolDef :=
  { name := "translator", description := "Translate text between languages",
    parameters := .zobject (.cons "text" .zstring (.cons "targetLanguage" .zstring
      (.cons "sourceLanguage" (.zoptional .zstring) .nil))),
    execute := .builtinImpl "translator" }

def fileReaderTool : ToolDef :=
  { name := "fileReader", description := "Read content from files",
    parameters := .zobject (.cons "path" .zstring .nil),
    execute := .builtinImpl "fileReader" }

def fileWriterTool : ToolDef :=
  { name := "fileWriter", description := "Write content to files",
    parameters := .zobject (.cons "path" .zstring (.cons "content" .zstring .nil)),
    execute := .builtinImpl "fileWriter" }

def httpRequestTool : ToolDef :=
  { name := "httpRequest", description := "Make HTTP requests to external APIs",
    parameters := .zobject (.cons "url" .zstring (.cons "method" (.zoptional .zstring)
      (.cons "headers" (.zoptional .zrecord) (.cons "body" (.zoptional .zstring) .nil)))),
    execute := .builtinImpl "httpRequest" }

/-- Registry lookup (`toolRegistry[id]`). -/
def toolRegistryFind : String → Option ToolDef
  | "calculator" => some calculatorTool
  | "webSearch" => some webSearchTool
  | "weatherFetch" => some weatherTool
  | "jsonParser" => some jsonParserTool
  | "emailSender" => some emailSenderTool
  | "dataQuery" => some dataQueryTool
  | "translator" => some translatorTool
  | "fileReader" => some fileReaderTool
  | "fileWriter" => some fileWriterTool
  | "httpRequest" => some httpRequestTool
  | _ => none

/-- Resolution of identifiers against the registry (`getToolsByIds`). -/
def getToolsByIds (ids : List String) : List ToolDef := ids.filterMap toolRegistryFind

/-- String member of a stored schema blob (`schema.name`,
`schema.description`); a missing or non-string member is coerced to the
empty string in this model. -/
def blobStringField (v : JsonVal) (key : String) : String :=
  match jsGetField v key with
  | some (.jstr s) => s
  | _ => ""

/-- The fallback branch of `createToolFromDB`: parse the `parameters`
column (a malformed string throws), convert it with `parseZodSchema`, and
attach the default echo implementation. -/
def fallbackToolFromDB (t : DBTool) : Except Unit ToolDef := do
  let params ← jsonParseDoc t.parameters
  .ok { name := t.name, description := t.description.getD "",
        parameters := parseZodSchemaV params, execute := .echoArgs t.name }

/-- Construction of a custom tool from a row (`createToolFromDB`).  With a
truthy `schema` column the blob is parsed first — a malformed schema string
throws out of the function, this parse is not inside the `try`.  Only when
an implementation body is present and `ENABLE_DB_TOOL_CODE` is set is the
body compiled; a compilation failure is caught, logged, and the function
falls through to the fallback branch. -/
def createToolFromDB (flag : Bool) (t : DBTool) : Except Unit (ToolDef × List ToolLogEv) :=
  match t.schema with
  | some doc =>
    if storedDocTruthy doc then
      match jsonParseDoc doc with
      | .error e => .error e
      | .ok blob =>
        match t.implementation, flag with
        | some (.compilable tag), true =>
          .ok ({ name := blobStringField blob "name",
                 description := blobStringField blob "description",
                 parameters := .zcast (jsGetField blob "parameters"),
                 execute := .compiledImpl tag }, [])
        | some (.uncompilable _), true => do
          let d ← fallbackToolFromDB t
          .ok (d, [.implLoadError t.id])
        | _, _ => do
          let d ← fallbackToolFromDB t
          .ok (d, [])
    else do
      let d ← fallbackToolFromDB t
      .ok (d, [])
  | none => do
    let d ← fallbackToolFromDB t
    .ok (d, [])

/-- First-occurrence deduplication (`Array.from(new Set(...))`). -/
def dedupFirstAux (seen : List String) : List String → List String
  | [] => []
  | x :: xs =>
    if seen.contains x then dedupFirstAux seen xs
    else x :: dedupFirstAux (x :: seen) xs

def dedupFirst (l : List String) : List String := dedupFirstAux [] l

/-- Step 3 of `loadToolsForAgent`: for each fetched row whose name is not
yet selected but matches a built-in, push the built-in definition and mark
the name as selected.  Returns the pushed definitions and the final
`selectedByName` set. -/
def preferBuiltins (sel : List String) : List DBTool → List ToolDef × List String
  | [] => ([], sel)
  | r :: rs =>
    if r.name == "" then preferBuiltins sel rs
    else if sel.contains r.name then preferBuiltins sel rs
    else
      match toolRegistryFind r.name with
      | some td =>
        let (ts, selFin) := preferBuiltins (r.name :: sel) rs
        (td :: ts, selFin)
      | none => preferBuiltins sel rs

/-- Sequencing of `Promise.all(customDBTools.map(createToolFromDB))`: one
rejection rejects the whole resolution. -/
def resolveCustomTools (flag : Bool) : List DBTool → Except Unit (List (ToolDef × List ToolLogEv))
  | [] => .ok []
  | t :: ts =>
    match createToolFromDB flag t with
    | .error e => .error e
    | .ok d =>
      match resolveCustomTools flag ts with
      | .error e => .error e
      | .ok rest => .ok (d :: rest)

/-! The stages of `loadToolsForAgent`, factored as named definitions (one
per numbered step of the source) so the theorems below can speak about the
intermediate lists. -/

/-- Step 0: normalize and dedupe the incoming identifiers
(`Array.from(new Set(toolIds.filter(Boolean)))`). -/
def uniqueIdsOf (toolIds : List String) : List String :=
  dedupFirst (toolIds.filter (fun s => s != ""))

/-- Step 1: the names selected by the built-in resolution
(`builtInByName.map(t => t.schema.name)`). -/
def selected0Of (toolIds : List String) : List String :=
  (getToolsByIds (uniqueIdsOf toolIds)).map (fun t => t.name)

/-- Step 2a: identifiers not yet resolved. -/
def unresolvedOf (toolIds : List String) : List String :=
  (uniqueIdsOf toolIds).filter (fun i => !((selected0Of toolIds).contains i))

/-- Step 2b: the rows fetched by `prisma.tool.findMany` with the
id-or-name `OR` clause (`db` is the tool table in store order). -/
def dbToolsOf (db : List DBTool) (toolIds : List String) : List DBTool :=
  if (unresolvedOf toolIds).isEmpty then []
  else db.filter (fun r =>
    (unresolvedOf toolIds).contains r.id || (unresolvedOf toolIds).contains r.name)

/-- Step 3 outcome: the preferred built-ins and the final selected-name set. -/
def pbOf (db : List DBTool) (toolIds : List String) : List ToolDef × List String :=
  preferBuiltins (selected0Of toolIds) (dbToolsOf db toolIds)

/-- Step 4a: the rows that become custom tools. -/
def customRowsOf (db : List DBTool) (toolIds : List String) : List DBTool :=
  (dbToolsOf db toolIds).filter (fun r => !((pbOf db toolIds).2.contains r.name))

/-- The tool resolver (`loadToolsForAgent`): dedupe non-empty identifiers,
resolve built-ins by name, fetch rows matching the unresolved identifiers
by id or name, prefer built-ins for same-named rows, and build custom
definitions for the rest; the custom constructions run under
`Promise.all`, so one rejection rejects the whole call. -/
def loadToolsForAgent (flag : Bool) (db : List DBTool) (toolIds : List String) :
    Except Unit (List ToolDef × List ToolLogEv) :=
  if toolIds.isEmpty then .ok ([], [])
  else
    match resolveCustomTools flag (customRowsOf db toolIds) with
    | .error e => .error e
    | .ok customResolved =>
      .ok (getToolsByIds (uniqueIdsOf toolIds) ++ (pbOf db toolIds).1 ++
             customResolved.map Prod.fst,
           (customResolved.map Prod.snd).flatten)

/-- Whether a JSON value is a bare string (`typeof v === 'string'`). -/
def isBareString : JsonVal → Bool
  | .jstr _ => true
  | _ => false

/-- Parse-health of one stored row: its truthy `schema` document (if any)
parses, and its `parameters` document parses to a value that is not itself
a bare JSON string.  This is exactly what the fallible steps of
`createToolFromDB` require of the store: the two `JSON.parse` calls on
stored text succeed, and `parseZodSchema` never reaches its own re-parse
of a doubly-encoded (bare string) parameters value — that re-parse sits
outside every `try` and can throw just like a malformed column. -/
def RowDocsParse (r : DBTool) : Prop :=
  (∀ doc, r.schema = some doc → storedDocTruthy doc = true →
    ∃ b, jsonParseDoc doc = Except.ok b) ∧
  ∃ p, jsonParseDoc r.parameters = Except.ok p ∧ isBareString p = false

/-- Name-consistency of one stored row: if it carries a schema blob, the
blob's `name` member is the row's own canonical name (the shape in which
the application stores tool schemas). -/
def BlobNameOwn (r : DBTool) : Prop :=
  ∀ doc blob, r.schema = some doc → jsonParseDoc doc = Except.ok blob →
    blobStringField blob "name" = r.name

/-! ### The tool mutation routes (`/api/tools/[id]`)

The `PUT` and `DELETE` handlers: find the row by id, reject a missing row
with 404 and a built-in row with 403, otherwise apply the mutation.  The
request body of `PUT` is modelled as a patch of the columns this model
carries (Prisma sets exactly the provided fields). -/

structure ToolPatch where
  name : Option String := none
  description : Option (Option String) := none
  parameters : Option StoredDoc := none
  implementation : Option (Option ImplSrc) := none
  deriving DecidableEq, Repr

def applyToolPatch (r : DBTool) (p : ToolPatch) : DBTool :=
  { r with
    name := p.name.getD r.name,
    description := p.description.getD r.description,
    parameters := p.parameters.getD r.parameters,
    implementation := p.implementation.getD r.implementation }

/-- Lookup by primary key (`prisma.tool.findUnique(\x7b where: \x7b id \x7d \x7d)`). -/
def findToolById (db : List DBTool) (id : String) : Option DBTool :=
  db.find? (fun r => r.id == id)

/-- The `DELETE` handler: HTTP status and resulting table. -/
def deleteToolRoute (db : List DBTool) (id : String) : Nat × List DBTool :=
  match findToolById db id with
  | none => (404, db)
  | some r =>
    if r.isBuiltin then (403, db)
    else (200, db.filter (fun x => !(x.id == id)))

/-- The `PUT` handler: HTTP status and resulting table. -/
def putToolRoute (db : List DBTool) (id : String) (body : ToolPatch) : Nat × List DBTool :=
  match findToolById db id with
  | none => (404, db)
  | some r =>
    if r.isBuiltin then (403, db)
    else (200, db.map (fun x => if x.id == id then applyToolPatch x body else x))

/-! ### The execution dispatcher (`runner.ts`)

An `AgentExecution` row and the updates written by `updateExecutionRecord`.
`Date.now()` readings are the explicit parameters `startTime`/`endTime`;
the generated record id is a parameter; the outcome of the underlying
`runJAFAgent` call (which performs the external model-provider HTTP request)
is an `Except String String` parameter — `.error msg` models a thrown error
whose extracted message is `msg`.  Each dispatch returns its result, the
resulting execution table, and the ordered trace of persistence and
model-call events it performed. -/

structure ExecRecord where
  id : String
  agentId : String
  input : String
  status : String
  output : Option String := none
  error : Option String := none
  durationMs : Option Int := none
  completedAt : Option Int := none
  deriving DecidableEq, Repr

structure ExecUpdate where
  output : Option String := none
  status : Option String := none
  error : Option String := none
  durationMs : Option Int := none
  completedAt : Option Int := none
  deriving DecidableEq, Repr

/-- The record inserted by `createExecutionRecord`: status `running`, no
output, no error, no duration yet. -/
def newRunningRecord (newId agentId input : String) : ExecRecord :=
  { id := newId, agentId := agentId, input := input, status := "running" }

/-- Insertion of the fresh execution row (`prisma.agentExecution.create`). -/
def createExecutionRecord (db : List ExecRecord) (newId agentId input : String) :
    ExecRecord × List ExecRecord :=
  (newRunningRecord newId agentId input, db ++ [newRunningRecord newId agentId input])

/-- Application of an update object: exactly the provided fields are set. -/
def applyExecUpdate (r : ExecRecord) (u : ExecUpdate) : ExecRecord :=
  { r with
    output := match u.output with | some o => some o | none => r.output,
    status := match u.status with | some s => s | none => r.status,
    error := match u.error with | some e => some e | none => r.error,
    durationMs := match u.durationMs with | some d => some d | none => r.durationMs,
    completedAt := match u.completedAt with | some c => some c | none => r.completedAt }

/-- The row update (`prisma.agentExecution.update(\x7b where: \x7b id \x7d \x7d)`). -/
def updateExecutionRecord (db : List ExecRecord) (eid : String) (u : ExecUpdate) :
    List ExecRecord :=
  db.map (fun r => if r.id == eid then applyExecUpdate r u else r)

inductive DispatchEv : Type where
  | createdRec (r : ExecRecord) : DispatchEv
  | modelRun : DispatchEv
  | updatedRec (eid : String) (u : ExecUpdate) : DispatchEv
  deriving DecidableEq, Repr

/-- The non-streaming dispatcher `runAgent`: create the record, run the
agent, then write exactly one terminal update — `completed` with the output
on success, `failed` with the error message on a throw, in both cases with
`durationMs = endTime - startTime` and a completion timestamp; a thrown
error is re-raised after the update. -/
def runAgentDispatch (outcome : Except String String) (startTime endTime : Int)
    (db : List ExecRecord) (newId agentId input : String) :
    Except String (String × String × Int) × List ExecRecord × List DispatchEv :=
  let created := createExecutionRecord db newId agentId input
  match outcome with
  | .ok output =>
    let u : ExecUpdate := { output := some output, status := some "completed",
                            durationMs := some (endTime - startTime),
                            completedAt := some endTime }
    (.ok (newId, output, endTime - startTime),
     updateExecutionRecord created.2 newId u,
     [.createdRec created.1, .modelRun, .updatedRec newId u])
  | .error msg =>
    let u : ExecUpdate := { status := some "failed", error := some msg,
                            durationMs := some (endTime - startTime),
                            completedAt := some endTime }
    (.error msg,
     updateExecutionRecord created.2 newId u,
     [.createdRec created.1, .modelRun, .updatedRec newId u])

/-- Split on a separator character, JS `String.split(sep)` semantics
(`''.split(' ') = ['']`, separators at the ends produce empty segments). -/
def splitOnChar (sep : Char) : List Char → List (List Char)
  | [] => [[]]
  | c :: rest =>
    if c == sep then [] :: splitOnChar sep rest
    else
      match splitOnChar sep rest with
      | [] => [[c]]
      | w :: ws => (c :: w) :: ws

/-- The chunk sequence produced by `streamJAFAgent` for a completed result:
`result.split(' ')` with `' '` appended to every word (`yield word + ' '`). -/
def streamChunksOf (result : String) : List String :=
  (splitOnChar ' ' result.data).map (fun w => String.mk (w ++ [' ']))

/-- The accumulated `fullOutput` of `streamAgent` (`fullOutput += chunk`). -/
def concatChunks (chunks : List String) : String :=
  chunks.foldl (fun a b => a ++ b) ""

/-- The streaming dispatcher `streamAgent`: create the record, stream the
chunks produced by `streamJAFAgent` while accumulating them, then write one
terminal update with the accumulated output; on a throw, the same `failed`
update as the non-streaming path and a re-raise. -/
def streamAgentDispatch (outcome : Except String String) (startTime endTime : Int)
    (db : List ExecRecord) (newId agentId input : String) :
    Except String (List String) × List ExecRecord × List DispatchEv :=
  let created := createExecutionRecord db newId agentId input
  match outcome with
  | .ok result =>
    let chunks := streamChunksOf result
    let u : ExecUpdate := { output := some (concatChunks chunks), status := some "completed",
                            durationMs := some (endTime - startTime),
                            completedAt := some endTime }
    (.ok chunks,
     updateExecutionRecord created.2 newId u,
     [.createdRec created.1, .modelRun, .updatedRec newId u])
  | .error msg =>
    let u : ExecUpdate := { status := some "failed", error := some msg,
                            durationMs := some (endTime - startTime),
                            completedAt := some endTime }
    (.error msg,
     updateExecutionRecord created.2 newId u,
     [.createdRec created.1, .modelRun, .updatedRec newId u])

/-! ### The restricted schema fragment for the round-trip claim

JSON schema descriptions whose leaves are `string`, `number` and `boolean`
tags, closed under `array`/`object` nesting, together with their canonical
JSON encoding and their expected images under the two conversions. -/

mutual

inductive SimpleSchema : Type where
  | sstr : SimpleSchema
  | snum : SimpleSchema
  | sbool : SimpleSchema
  | sarr (elem : SimpleSchema) : SimpleSchema
  | sobj (fields : SFields) : SimpleSchema
  deriving DecidableEq, Repr

inductive SFields : Type where
  | nil : SFields
  | cons (key : String) (t : SimpleSchema) (rest : SFields) : SFields
  deriving DecidableEq, Repr

end

mutual

def simpleToJson : SimpleSchema → JsonVal
  | .sstr => .jobj (.cons "type" (.jstr "string") .nil)
  | .snum => .jobj (.cons "type" (.jstr "number") .nil)
  | .sbool => .jobj (.cons "type" (.jstr "boolean") .nil)
  | .sarr t => .jobj (.cons "type" (.jstr "array") (.cons "items" (simpleToJson t) .nil))
  | .sobj fs =>
    .jobj (.cons "type" (.jstr "object")
      (.cons "properties" (.jobj (sfieldsToJson fs)) .nil))

def sfieldsToJson : SFields → JFields
  | .nil => .nil
  | .cons k t rest => .cons k (simpleToJson t) (sfieldsToJson rest)

end

def skeys : SFields → List String
  | .nil => []
  | .cons k _ rest => k :: skeys rest

mutual

def simpleToZod : SimpleSchema → ZodTy
  | .sstr => .zstring
  | .snum => .znumber
  | .sbool => .zboolean
  | .sarr t => .zarray (simpleToZod t)
  | .sobj fs => .zobject (sfieldsToZod fs)

def sfieldsToZod : SFields → ZShape
  | .nil => .nil
  | .cons k t rest => .cons k (simpleToZod t) (sfieldsToZod rest)

end

mutual

def simpleToOAI : SimpleSchema → OAIParams
  | .sstr => .ostring
  | .snum => .onumber
  | .sbool => .oboolean
  | .sarr t => .oarray (simpleToOAI t)
  | .sobj fs => .oobject (sfieldsToOAI fs) (skeys fs)

def sfieldsToOAI : SFields → OFields
  | .nil => .nil
  | .cons k t rest => .cons k (simpleToOAI t) (sfieldsToOAI rest)

end

/-! Leaf type tags of a schema description, in left-to-right order. -/

mutual

def schemaLeafTags : SimpleSchema → List String
  | .sstr => ["string"]
  | .snum => ["number"]
  | .sbool => ["boolean"]
  | .sarr t => schemaLeafTags t
  | .sobj fs => sfieldsLeafTags fs

def sfieldsLeafTags : SFields → List String
  | .nil => []
  | .cons _ t rest => schemaLeafTags t ++ sfieldsLeafTags rest

end

/-! Leaf type tags of a vendor-parameter document, in left-to-right order
(enum documents carry `type: string`, open objects are `object` leaves). -/

mutual

def oaiLeafTags : OAIParams → List String
  | .ostring => ["string"]
  | .onumber => ["number"]
  | .oboolean => ["boolean"]
  | .oarray t => oaiLeafTags t
  | .oobject props _ => ofieldsLeafTags props
  | .oanyOf alts => oaltsLeafTags alts
  | .oenum _ => ["string"]
  | .oenumCast _ => ["string"]
  | .oopenObject => ["object"]

def ofieldsLeafTags : OFields → List String
  | .nil => []
  | .cons _ v rest => oaiLeafTags v ++ ofieldsLeafTags rest

def oaltsLeafTags : OAlts → List String
  | .nil => []
  | .cons v rest => oaiLeafTags v ++ oaltsLeafTags rest

end

/-- The composed Schema Bridge round trip: JSON description to runtime
schema (`parseZodSchema`) to vendor-parameter document
(`schemaToOpenAIParams`). -/
def schemaRoundTrip (s : SimpleSchema) : OAIParams :=
  schemaToOpenAIParams (parseZodSchemaV (simpleToJson s))

/-! ## Claim theorems -/

/-- Claim C4: provider selection follows the fixed first-match-wins order —
the program's `getProviderFromModel` coincides with the rule list written
from the specification (environment gateway, recognized vendor prefix,
`gpt`/`claude`/`gemini`/`llama|mixtral|mistral` substrings, default
`openai`) for every environment and model name; in particular
`claude-3-opus` with no environment override selects `anthropic`,
`gemini/gemini-pro` selects `litellm` regardless of environment, the
unified-gateway flag selects `litellm` even for `gpt-4`, a `gpt` substring
is checked before `claude`, and a recognized vendor prefix beats the bare
substring checks. -/
theorem c4_provider_selection_order :
    (∀ (env : ProviderEnv) (model : String),
      getProviderFromModel env model = selectProviderSpec env model) ∧
    getProviderFromModel {} "claude-3-opus" = .anthropic ∧
    (∀ env : ProviderEnv, getProviderFromModel env "gemini/gemini-pro" = .litellm) ∧
    getProviderFromModel { useLitellm := some "true" } "gpt-4" = .litellm ∧
    getProviderFromModel {} "claude-gpt" = .openai ∧
    getProviderFromModel {} "anthropic/gpt-4" = .litellm := by
  refine ⟨fun env model => rfl, by decide, fun env => ?_, by decide, by decide, by decide⟩
  unfold getProviderFromModel
  split
  · rfl
  · rfl

/-- Claim C5: the runtime-to-vendor conversion never raises (it is a total
function) and always returns a document whose root carries `type: object`;
a non-object resolved root is wrapped as
`\x7b type: object, properties: \x7b input: _ \x7d \x7d`; an internal failure of the
`resolve` helper produces the empty open object — and such failures are
reachable (resolving a `null` cast as a schema throws). -/
theorem c5_toVendorParams_total_object_root :
    (∀ s : ZodTy, rootTypeIsObject (schemaToOpenAIParams s) = true) ∧
    (∀ s : ZodTy, resolveZ s = .error () → schemaToOpenAIParams s = .oobject .nil []) ∧
    (∀ (s : ZodTy) (j : OAIParams), resolveZ s = .ok j → rootTypeIsObject j = false →
      schemaToOpenAIParams s = .oobject (.cons "input" j .nil) []) ∧
    resolveZ (.zcast (some .jnull)) = .error () := by
  refine ⟨fun s => ?_, fun s h => ?_, fun s j h hro => ?_, rfl⟩
  · unfold schemaToOpenAIParams
    cases hr : resolveZ s with
    | ok j =>
      by_cases hj : rootTypeIsObject j = true
      · simp [hj]
      · simp at hj
        dsimp only
        rw [hj]
        rfl
    | error e => rfl
  · simp [schemaToOpenAIParams, h]
  · simp [schemaToOpenAIParams, h, hro]

/-- Witness for C5 at concrete inputs: a plain `z.string()` root is wrapped
into an object root, and the reachable internal failure returns the empty
open object. -/
theorem c5_toVendorParams_total_object_root_witness :
    rootTypeIsObject (schemaToOpenAIParams .zstring) = true ∧
    schemaToOpenAIParams (.zcast (some .jnull)) = .oobject .nil [] ∧
    schemaToOpenAIParams .zstring = .oobject (.cons "input" .ostring .nil) [] :=
  ⟨c5_toVendorParams_total_object_root.1 .zstring,
   c5_toVendorParams_total_object_root.2.1 (.zcast (some .jnull)) rfl,
   c5_toVendorParams_total_object_root.2.2.1 .zstring .ostring rfl rfl⟩

/-- Claim C7: the instruction renderer substitutes `\x7b\x7bkey\x7d\x7d` placeholders
from the run context and leaves unmatched placeholders verbatim — on the
template `Hello \x7b\x7buserId\x7d\x7d` it yields exactly `Hello u1` for the context
`userId = u1` and the unchanged template for the empty context — and the
template source is the `instructions` field when non-empty, else the legacy
`systemPrompt` field, else the fixed default. -/
theorem c7_instruction_rendering :
    renderInstructions "Hello \x7b\x7buserId\x7d\x7d" [("userId", "u1")] = "Hello u1" ∧
    renderInstructions "Hello \x7b\x7buserId\x7d\x7d" [] = "Hello \x7b\x7buserId\x7d\x7d" ∧
    (∀ instructions systemPrompt : String, instructions ≠ "" →
      chooseInstructionTemplate instructions systemPrompt = instructions) ∧
    (∀ systemPrompt : String, systemPrompt ≠ "" →
      chooseInstructionTemplate "" systemPrompt = systemPrompt) ∧
    chooseInstructionTemplate "" "" = "You are a helpful assistant." := by
  refine ⟨by decide, by decide, fun i sp hi => ?_, fun sp hsp => ?_, by decide⟩
  · simp [chooseInstructionTemplate, hi]
  · simp [chooseInstructionTemplate, hsp]

/-- Witness for C7's template-precedence clauses at concrete field values. -/
theorem c7_instruction_rendering_witness :
    chooseInstructionTemplate "Do X." "Legacy." = "Do X." ∧
    chooseInstructionTemplate "" "Legacy." = "Legacy." :=
  ⟨c7_instruction_rendering.2.2.1 "Do X." "Legacy." (by decide),
   c7_instruction_rendering.2.2.2.1 "Legacy." (by decide)⟩

/-- Claim C8: the tool mutation surface rejects built-in tools — for every
stored tool row with `isBuiltin = true`, the `DELETE` handler answers 403
and leaves the table unchanged, and the `PUT` handler likewise answers 403
and applies no update. -/
theorem c8_builtin_tools_immutable :
    ∀ (db : List DBTool) (id : String) (r : DBTool) (body : ToolPatch),
      findToolById db id = some r → r.isBuiltin = true →
      deleteToolRoute db id = (403, db) ∧ putToolRoute db id body = (403, db) := by
  intro db id r body hfind hbuiltin
  constructor
  · unfold deleteToolRoute
    rw [hfind]
    simp [hbuiltin]
  · unfold putToolRoute
    rw [hfind]
    simp [hbuiltin]

/-- Witness for C8: deleting and editing a concrete built-in row is
rejected with 403 and the store is unchanged. -/
theorem c8_builtin_tools_immutable_witness :
    deleteToolRoute
        [{ id := "b1", name := "calculator",
           parameters := .sval (.jobj .nil), isBuiltin := true }] "b1" =
      (403, [{ id := "b1", name := "calculator",
               parameters := .sval (.jobj .nil), isBuiltin := true }]) ∧
    putToolRoute
        [{ id := "b1", name := "calculator",
           parameters := .sval (.jobj .nil), isBuiltin := true }] "b1" {} =
      (403, [{ id := "b1", name := "calculator",
               parameters := .sval (.jobj .nil), isBuiltin := true }]) :=
  c8_builtin_tools_immutable _ "b1" _ {} rfl rfl

/-! Helper lemmas about the dispatcher store and the chunking. -/

theorem updateExec_append_fresh (db : List ExecRecord) (rcd : ExecRecord)
    (eid : String) (u : ExecUpdate) (hid : rcd.id = eid)
    (h : ∀ r ∈ db, r.id ≠ eid) :
    updateExecutionRecord (db ++ [rcd]) eid u = db ++ [applyExecUpdate rcd u] := by
  unfold updateExecutionRecord
  rw [List.map_append]
  congr 1
  · conv_rhs => rw [← List.map_id db]
    apply List.map_congr_left
    intro r hr
    simp [h r hr]
  · simp [hid]

theorem splitOnChar_ne_nil (sep : Char) (l : List Char) : splitOnChar sep l ≠ [] := by
  induction l with
  | nil => simp [splitOnChar]
  | cons c rest ih =>
    unfold splitOnChar
    by_cases hc : (c == sep) = true
    · simp [hc]
    · simp only [hc]
      cases hs : splitOnChar sep rest with
      | nil => exact absurd hs ih
      | cons w ws => simp

theorem splitOnChar_flatten (sep : Char) (l : List Char) :
    ((splitOnChar sep l).map (fun w => w ++ [sep])).flatten = l ++ [sep] := by
  induction l with
  | nil => simp [splitOnChar]
  | cons c rest ih =>
    unfold splitOnChar
    by_cases hc : (c == sep) = true
    · have : c = sep := by simpa using hc
      simp [hc, this, ih]
    · simp only [hc]
      cases hs : splitOnChar sep rest with
      | nil => exact absurd hs (splitOnChar_ne_nil sep rest)
      | cons w ws =>
        rw [hs] at ih
        simp only [Bool.false_eq_true, if_false, List.map_cons, List.flatten_cons,
          List.cons_append, List.append_assoc] at ih ⊢
        rw [ih]

theorem foldl_append_mk (ls : List (List Char)) (acc : List Char) :
    List.foldl (fun a b => a ++ b) (String.mk acc) (ls.map (fun w => String.mk w)) =
      String.mk (acc ++ ls.flatten) := by
  induction ls generalizing acc with
  | nil => simp
  | cons h t ih =>
    simp only [List.map_cons, List.foldl_cons, List.flatten_cons]
    have hmk : String.mk acc ++ String.mk h = String.mk (acc ++ h) := rfl
    rw [hmk, ih, List.append_assoc]

/-- Concatenating the streamed chunks restores the underlying result plus
exactly one trailing space. -/
theorem concatChunks_streamChunksOf (R : String) :
    concatChunks (streamChunksOf R) = R ++ " " := by
  unfold concatChunks streamChunksOf
  have hmap : (splitOnChar ' ' R.data).map (fun w => String.mk (w ++ [' '])) =
      ((splitOnChar ' ' R.data).map (fun w => w ++ [' '])).map (fun w => String.mk w) := by
    rw [List.map_map]
    rfl
  rw [hmap]
  have hempty : ("" : String) = String.mk [] := rfl
  rw [hempty, foldl_append_mk, List.nil_append, splitOnChar_flatten]
  rfl

/-- Claim C1: when the underlying agent run throws, the dispatcher creates
exactly one `ExecutionRecord` (inserted with status `running` before the
model call), then writes exactly one terminal update setting status
`failed`, `error` equal to the thrown message, and
`durationMs = endTime - startTime`, and re-raises the original error.  The
event trace pins the order (creation strictly before the model run, the
single terminal update after it); the freshness hypothesis says the
generated record id is new, so the rest of the store is untouched. -/
theorem c1_failed_run_single_terminal_update :
    ∀ (msg : String) (startTime endTime : Int) (db : List ExecRecord)
      (newId agentId input : String),
      (∀ r ∈ db, r.id ≠ newId) →
      runAgentDispatch (.error msg) startTime endTime db newId agentId input =
        (.error msg,
         db ++ [{ id := newId, agentId := agentId, input := input, status := "failed",
                  output := none, error := some msg,
                  durationMs := some (endTime - startTime), completedAt := some endTime }],
         [.createdRec { id := newId, agentId := agentId, input := input, status := "running" },
          .modelRun,
          .updatedRec newId { status := some "failed", error := some msg,
                              durationMs := some (endTime - startTime),
                              completedAt := some endTime }]) := by
  intro msg startTime endTime db newId agentId input h
  unfold runAgentDispatch createExecutionRecord
  dsimp only
  rw [updateExec_append_fresh db (newRunningRecord newId agentId input) newId _ rfl h]
  rfl

/-- Witness for C1 at a concrete failing run. -/
theorem c1_failed_run_single_terminal_update_witness :
    runAgentDispatch (.error "boom") 10 25 [] "e1" "a1" "hi" =
      (.error "boom",
       [{ id := "e1", agentId := "a1", input := "hi", status := "failed",
          output := none, error := some "boom", durationMs := some 15,
          completedAt := some 25 }],
       [.createdRec { id := "e1", agentId := "a1", input := "hi", status := "running" },
        .modelRun,
        .updatedRec "e1" { status := some "failed", error := some "boom",
                           durationMs := some 15, completedAt := some 25 }]) := by
  have h := c1_failed_run_single_terminal_update "boom" 10 25 [] "e1" "a1" "hi"
    (by intro r hr; simp at hr)
  simpa using h

/-- Claim C10: for an underlying run returning `R`, the streaming execution
yields the finite chunk sequence in which every space-separated segment of
`R` carries one appended space, so the concatenation of the chunks — and
hence the output persisted by the streaming dispatcher — equals the
non-streaming output `R` plus exactly one trailing space. -/
theorem c10_streaming_output_trailing_space :
    ∀ (R : String) (startTime endTime : Int) (db : List ExecRecord)
      (newId agentId input : String),
      (∀ r ∈ db, r.id ≠ newId) →
      concatChunks (streamChunksOf R) = R ++ " " ∧
      streamAgentDispatch (.ok R) startTime endTime db newId agentId input =
        (.ok (streamChunksOf R),
         db ++ [{ id := newId, agentId := agentId, input := input, status := "completed",
                  output := some (R ++ " "), error := none,
                  durationMs := some (endTime - startTime), completedAt := some endTime }],
         [.createdRec { id := newId, agentId := agentId, input := input, status := "running" },
          .modelRun,
          .updatedRec newId { output := some (R ++ " "), status := some "completed",
                              durationMs := some (endTime - startTime),
                              completedAt := some endTime }]) ∧
      runAgentDispatch (.ok R) startTime endTime db newId agentId input =
        (.ok (newId, R, endTime - startTime),
         db ++ [{ id := newId, agentId := agentId, input := input, status := "completed",
                  output := some R, error := none,
                  durationMs := some (endTime - startTime), completedAt := some endTime }],
         [.createdRec { id := newId, agentId := agentId, input := input, status := "running" },
          .modelRun,
          .updatedRec newId { output := some R, status := some "completed",
                              durationMs := some (endTime - startTime),
                              completedAt := some endTime }]) := by
  intro R startTime endTime db newId agentId input h
  refine ⟨concatChunks_streamChunksOf R, ?_, ?_⟩
  · unfold streamAgentDispatch createExecutionRecord
    dsimp only
    rw [concatChunks_streamChunksOf R]
    rw [updateExec_append_fresh db (newRunningRecord newId agentId input) newId _ rfl h]
    rfl
  · unfold runAgentDispatch createExecutionRecord
    dsimp only
    rw [updateExec_append_fresh db (newRunningRecord newId agentId input) newId _ rfl h]
    rfl

/-- Witness for C10 at a concrete completed run. -/
theorem c10_streaming_output_trailing_space_witness :
    concatChunks (streamChunksOf "a b") = "a b " ∧
    (streamAgentDispatch (.ok "a b") 0 7 [] "e2" "a1" "q").1 = .ok ["a ", "b "] := by
  have h := c10_streaming_output_trailing_space "a b" 0 7 [] "e2" "a1" "q"
    (by intro r hr; simp at hr)
  refine ⟨h.1, ?_⟩
  rw [h.2.1]
  rfl


/-! Helper lemmas for the tool resolver. -/

theorem customRowsOf_subset (db : List DBTool) (ids : List String) :
    ∀ t ∈ customRowsOf db ids, t ∈ db := by
  intro t ht
  have h1 : t ∈ dbToolsOf db ids := List.mem_of_mem_filter ht
  unfold dbToolsOf at h1
  split at h1
  · simp at h1
  · exact List.mem_of_mem_filter h1

theorem createToolFromDB_ok_of_docs (flag : Bool) (t : DBTool) (h : RowDocsParse t) :
    ∃ out, createToolFromDB flag t = Except.ok out := by
  obtain ⟨hschema, p, hp, _hns⟩ := h
  have hfb : fallbackToolFromDB t =
      Except.ok { name := t.name, description := t.description.getD "",
                  parameters := parseZodSchemaV p, execute := .echoArgs t.name } := by
    unfold fallbackToolFromDB
    rw [hp]
    rfl
  unfold createToolFromDB
  cases hs : t.schema with
  | none => exact ⟨_, by (try dsimp only); rw [hfb]; rfl⟩
  | some doc =>
    try dsimp only
    by_cases htr : storedDocTruthy doc = true
    · rw [if_pos htr]
      obtain ⟨b, hb⟩ := hschema doc hs htr
      rw [hb]
      try dsimp only
      cases hi : t.implementation with
      | none => exact ⟨_, by (try dsimp only); rw [hfb]; rfl⟩
      | some impl =>
        cases impl with
        | compilable tag =>
          cases flag
          · exact ⟨_, by (try dsimp only); rw [hfb]; rfl⟩
          · exact ⟨_, rfl⟩
        | uncompilable tag =>
          cases flag
          · exact ⟨_, by (try dsimp only); rw [hfb]; rfl⟩
          · exact ⟨_, by (try dsimp only); rw [hfb]; rfl⟩
    · rw [if_neg htr]
      exact ⟨_, by (try dsimp only); rw [hfb]; rfl⟩

theorem resolveCustomTools_ok_of_docs (flag : Bool) (rows : List DBTool)
    (h : ∀ t ∈ rows, RowDocsParse t) :
    ∃ outs, resolveCustomTools flag rows = Except.ok outs := by
  induction rows with
  | nil => exact ⟨[], rfl⟩
  | cons t ts ih =>
    obtain ⟨out, hout⟩ := createToolFromDB_ok_of_docs flag t (h t (by simp))
    obtain ⟨outs, houts⟩ := ih (fun x hx => h x (by simp [hx]))
    refine ⟨out :: outs, ?_⟩
    unfold resolveCustomTools
    rw [hout]
    try dsimp only
    rw [houts]

/-- Counterexample to claim C2: a single custom tool whose stored `schema`
column holds a malformed JSON string makes the whole resolution reject —
the failure is not caught per-tool and the remaining identifier's
definition is not returned (resolving the healthy row alone succeeds). -/
theorem c2_schema_parse_aborts_resolution :
    loadToolsForAgent false
        [ { id := "t1", name := "alpha", parameters := .sval (.jobj .nil) },
          { id := "t2", name := "beta", schema := some (.sstr "not json" none),
            parameters := .sval (.jobj .nil) } ]
        ["t1", "t2"] = Except.error () ∧
    loadToolsForAgent false
        [ { id := "t1", name := "alpha", parameters := .sval (.jobj .nil) } ]
        ["t1"] =
      Except.ok ([{ name := "alpha", description := "", parameters := .zunknown,
                    execute := .echoArgs "alpha" }], []) :=
  ⟨rfl, rfl⟩

/-- Claim C2 (amended): the per-tool catch covers only the compilation of a
stored implementation body — such a failure is logged per-tool and the tool
falls back to the echo definition without aborting anything — and the
resolver returns successfully for every identifier list whenever every
stored row's schema and parameters documents parse and no parameters
document is itself a bare JSON string, regardless of implementation
validity.  (A malformed stored schema or parameters JSON string rejects the
whole resolution, as the counterexample shows; a doubly-encoded bare-string
parameters document is excluded because `parseZodSchema` re-parses it with
`JSON.parse` outside any `try`, which can throw the same way.) -/
theorem c2_amended_impl_failures_caught_per_tool :
    (∀ (flag : Bool) (db : List DBTool) (toolIds : List String),
      (∀ r ∈ db, RowDocsParse r) →
      ∃ res, loadToolsForAgent flag db toolIds = Except.ok res) ∧
    (∀ (t : DBTool) (doc : StoredDoc) (blob : JsonVal) (tag : String),
      t.schema = some doc → storedDocTruthy doc = true →
      jsonParseDoc doc = Except.ok blob →
      t.implementation = some (.uncompilable tag) →
      (∃ p, jsonParseDoc t.parameters = Except.ok p ∧ isBareString p = false) →
      ∃ d, createToolFromDB true t = Except.ok (d, [.implLoadError t.id]) ∧
        d.execute = .echoArgs t.name ∧ d.name = t.name) := by
  constructor
  · intro flag db toolIds h
    by_cases hin : toolIds.isEmpty
    · unfold loadToolsForAgent
      rw [if_pos hin]
      exact ⟨_, rfl⟩
    · obtain ⟨outs, houts⟩ := resolveCustomTools_ok_of_docs flag (customRowsOf db toolIds)
        (fun t ht => h t (customRowsOf_subset db toolIds t ht))
      unfold loadToolsForAgent
      rw [if_neg hin, houts]
      exact ⟨_, rfl⟩
  · intro t doc blob tag hs htr hb himpl hpp
    obtain ⟨p, hp, _hns⟩ := hpp
    unfold createToolFromDB
    rw [hs]
    try dsimp only
    rw [if_pos htr, hb]
    try dsimp only
    rw [himpl]
    try dsimp only
    unfold fallbackToolFromDB
    rw [hp]
    exact ⟨_, rfl, rfl, rfl⟩

/-- Witness for the amended C2: a store whose only row carries an
uncompilable implementation resolves successfully, and the row's own
construction logs the per-tool implementation error and falls back to the
echo definition. -/
theorem c2_amended_impl_failures_caught_per_tool_witness :
    (∃ res, loadToolsForAgent true
      [ { id := "t9", name := "gamma", schema := some (.sval (.jobj .nil)),
          parameters := .sval (.jobj .nil),
          implementation := some (.uncompilable "bad body") } ]
      ["t9"] = Except.ok res) ∧
    (∃ d, createToolFromDB true
        { id := "t9", name := "gamma", schema := some (.sval (.jobj .nil)),
          parameters := .sval (.jobj .nil),
          implementation := some (.uncompilable "bad body") } =
        Except.ok (d, [.implLoadError "t9"]) ∧
      d.execute = .echoArgs "gamma" ∧ d.name = "gamma") := by
  constructor
  · refine c2_amended_impl_failures_caught_per_tool.1 true _ ["t9"] ?_
    intro r hr
    simp only [List.mem_singleton] at hr
    subst hr
    exact ⟨fun doc hdoc htr => by cases hdoc; exact ⟨_, rfl⟩, ⟨_, rfl, rfl⟩⟩
  · exact c2_amended_impl_failures_caught_per_tool.2 _ _ (.jobj .nil) "bad body"
      rfl rfl rfl rfl ⟨_, rfl, rfl⟩

/-! Round-trip lemmas for the restricted schema fragment. -/

theorem simpleToJson_truthy (s : SimpleSchema) : jsTruthy (simpleToJson s) = true := by
  cases s <;> rfl

mutual

theorem parseZodType_simple : (s : SimpleSchema) →
    parseZodType (simpleToJson s) = simpleToZod s
  | .sstr => rfl
  | .snum => rfl
  | .sbool => rfl
  | .sarr t => by
    have ih := parseZodType_simple t
    simp [simpleToJson, parseZodType, itemsSearch, lookupField, simpleToZod,
      simpleToJson_truthy, ih]
  | .sobj fs => by
    have ihf := fieldsShape_simple fs
    simp [simpleToJson, parseZodType, propsShapeSearch, entriesShape, lookupField,
      jsTruthy, simpleToZod, ihf]

theorem fieldsShape_simple : (fs : SFields) →
    fieldsShape (sfieldsToJson fs) = sfieldsToZod fs
  | .nil => rfl
  | .cons k t rest => by
    have ih1 := parseZodType_simple t
    have ih2 := fieldsShape_simple rest
    simp [sfieldsToJson, fieldsShape, sfieldsToZod, ih1, ih2]

end

theorem isOptionalB_simple (s : SimpleSchema) : isOptionalB (simpleToZod s) = false := by
  cases s <;> rfl

theorem requiredOf_simple : (fs : SFields) → requiredOf (sfieldsToZod fs) = skeys fs
  | .nil => rfl
  | .cons k t rest => by
    have ih := requiredOf_simple rest
    simp [sfieldsToZod, requiredOf, skeys, isOptionalB_simple, ih]

mutual

theorem resolveZ_simple : (s : SimpleSchema) →
    resolveZ (simpleToZod s) = Except.ok (simpleToOAI s)
  | .sstr => rfl
  | .snum => rfl
  | .sbool => rfl
  | .sarr t => by
    have ih := resolveZ_simple t
    simp [simpleToZod, resolveZ, ih, simpleToOAI]
  | .sobj fs => by
    have ihf := resolveShape_simple fs
    simp [simpleToZod, resolveZ, ihf, simpleToOAI, requiredOf_simple]

theorem resolveShape_simple : (fs : SFields) →
    resolveShape (sfieldsToZod fs) = Except.ok (sfieldsToOAI fs)
  | .nil => rfl
  | .cons k t rest => by
    have ih1 := resolveZ_simple t
    have ih2 := resolveShape_simple rest
    simp [sfieldsToZod, resolveShape, ih1, ih2, sfieldsToOAI]

end

/-- Counterexample to claim C6: for the leaf description `\x7b type: 'number' \x7d`
the composed conversion does not round-trip the type tag —
`parseZodSchema` maps any non-object root to `z.unknown()`, which converts
to a `string`-typed leaf wrapped under `properties.input`. -/
theorem c6_root_number_leaf_becomes_string :
    schemaRoundTrip .snum = .oobject (.cons "input" .ostring .nil) [] ∧
    oaiLeafTags (schemaRoundTrip .snum) = ["string"] ∧
    schemaLeafTags .snum = ["number"] ∧
    oaiLeafTags (schemaRoundTrip .snum) ≠ schemaLeafTags .snum :=
  ⟨rfl, rfl, rfl, by decide⟩

/-- Claim C6 (amended): for every description in the fragment whose root is
an object, the composed conversion is structurally exact — the result is
the canonical vendor document with identical leaf type tags, identical
array/object nesting, and a `required` list holding exactly the keys of
each object (nothing in the fragment is optional-marked).  For a non-object
root the tags are not preserved, as the counterexample shows. -/
theorem c6_amended_object_root_round_trip :
    ∀ fs : SFields, schemaRoundTrip (.sobj fs) = simpleToOAI (.sobj fs) := by
  intro fs
  unfold schemaRoundTrip
  have h1 : parseZodSchemaV (simpleToJson (.sobj fs)) = .zobject (sfieldsToZod fs) := by
    simp [simpleToJson, parseZodSchemaV, jsTruthy, lookupField, schemaObjectShape,
      propsShapeSearch, entriesShape, fieldsShape_simple fs]
  have h2 := resolveZ_simple (.sobj fs)
  simp only [simpleToZod] at h2
  rw [h1]
  unfold schemaToOpenAIParams
  rw [h2]
  simp [rootTypeIsObject, simpleToOAI]

/-! Lemmas about the registry, deduplication, and the built-in stage. -/

theorem toolRegistryFind_name : ∀ {id : String} {td : ToolDef},
    toolRegistryFind id = some td → td.name = id := by
  intro id td h
  unfold toolRegistryFind at h
  split at h <;> first
    | exact Option.noConfusion h
    | (injection h with h2; subst h2; rfl)

theorem toolRegistryFind_ne_empty {id : String} {td : ToolDef}
    (h : toolRegistryFind id = some td) : id ≠ "" := by
  intro hemp
  rw [hemp] at h
  exact Option.noConfusion h

theorem mem_dedupFirstAux : ∀ (l : List String) (seen : List String) (x : String),
    x ∈ dedupFirstAux seen l ↔ x ∈ l ∧ x ∉ seen := by
  intro l
  induction l with
  | nil => intro seen x; simp [dedupFirstAux]
  | cons y ys ih =>
    intro seen x
    unfold dedupFirstAux
    by_cases hy : seen.contains y = true
    · rw [if_pos hy]
      rw [ih seen x]
      have hmem : y ∈ seen := List.elem_iff.mp hy
      constructor
      · rintro ⟨hx, hns⟩
        exact ⟨List.mem_cons_of_mem y hx, hns⟩
      · rintro ⟨hx, hns⟩
        rcases List.mem_cons.mp hx with hxy | hx2
        · subst hxy; exact absurd hmem hns
        · exact ⟨hx2, hns⟩
    · rw [if_neg hy]
      have hnmem : y ∉ seen := fun hm => hy (List.elem_iff.mpr hm)
      constructor
      · intro hx
        rcases List.mem_cons.mp hx with hxy | hx2
        · subst hxy; exact ⟨List.mem_cons_self x ys, hnmem⟩
        · rw [ih (y :: seen) x] at hx2
          exact ⟨List.mem_cons_of_mem y hx2.1,
                 fun hs => hx2.2 (List.mem_cons_of_mem y hs)⟩
      · rintro ⟨hx, hns⟩
        rcases List.mem_cons.mp hx with hxy | hx2
        · subst hxy; exact List.mem_cons_self x (dedupFirstAux (x :: seen) ys)
        · by_cases hxy2 : x = y
          · subst hxy2; exact List.mem_cons_self x (dedupFirstAux (x :: seen) ys)
          · refine List.mem_cons_of_mem y ?_
            rw [ih (y :: seen) x]
            refine ⟨hx2, fun hs => ?_⟩
            rcases List.mem_cons.mp hs with h1 | h2
            · exact hxy2 h1
            · exact hns h2

theorem dedupFirstAux_nodup : ∀ (l : List String) (seen : List String),
    (dedupFirstAux seen l).Nodup := by
  intro l
  induction l with
  | nil => intro seen; simp [dedupFirstAux]
  | cons y ys ih =>
    intro seen
    unfold dedupFirstAux
    by_cases hy : seen.contains y = true
    · rw [if_pos hy]; exact ih seen
    · rw [if_neg hy]
      refine List.nodup_cons.mpr ⟨fun hmem => ?_, ih (y :: seen)⟩
      exact ((mem_dedupFirstAux ys (y :: seen) y).mp hmem).2 (List.mem_cons_self y seen)

theorem uniqueIdsOf_nodup (toolIds : List String) : (uniqueIdsOf toolIds).Nodup :=
  dedupFirstAux_nodup _ []

theorem mem_uniqueIdsOf {toolIds : List String} {x : String} :
    x ∈ uniqueIdsOf toolIds ↔ x ∈ toolIds ∧ x ≠ "" := by
  unfold uniqueIdsOf dedupFirst
  rw [mem_dedupFirstAux]
  simp [List.mem_filter]

/-- The names of the built-in stage are exactly the identifiers that hit
the registry (registry keys equal the schema names of their entries). -/
theorem getToolsByIds_names : ∀ ids : List String,
    (getToolsByIds ids).map (fun t => t.name) =
      ids.filter (fun i => (toolRegistryFind i).isSome) := by
  intro ids
  induction ids with
  | nil => rfl
  | cons i is ih =>
    unfold getToolsByIds at ih ⊢
    cases hfind : toolRegistryFind i with
    | none => simp [List.filterMap_cons, hfind, ih]
    | some td =>
      simp [List.filterMap_cons, hfind, ih, toolRegistryFind_name hfind]

theorem selected0Of_eq (toolIds : List String) :
    selected0Of toolIds =
      (uniqueIdsOf toolIds).filter (fun i => (toolRegistryFind i).isSome) :=
  getToolsByIds_names _

theorem mem_selected0Of {toolIds : List String} {b : String}
    (hb : b ∈ uniqueIdsOf toolIds) {bi : ToolDef}
    (hfind : toolRegistryFind b = some bi) : b ∈ selected0Of toolIds := by
  rw [selected0Of_eq]
  exact List.mem_filter.mpr ⟨hb, by simp [hfind]⟩

/-- Exactly one built-in definition per hit name. -/
theorem getToolsByIds_filter_name : ∀ (ids : List String) (b : String) (bi : ToolDef),
    ids.Nodup → toolRegistryFind b = some bi → b ∈ ids →
    (getToolsByIds ids).filter (fun d => d.name == b) = [bi] := by
  intro ids
  induction ids with
  | nil => intro b bi _ _ hmem; simp at hmem
  | cons i is ih =>
    intro b bi hnd hfind hmem
    have hnd2 := List.nodup_cons.mp hnd
    unfold getToolsByIds at ih ⊢
    by_cases hib : i = b
    · subst hib
      rw [List.filterMap_cons]
      rw [hfind]
      have hrest : (is.filterMap toolRegistryFind).filter (fun d => d.name == i) = [] := by
        rw [List.filter_eq_nil_iff]
        intro d hd
        obtain ⟨j, hj, hjf⟩ := List.mem_filterMap.mp hd
        have hdj : d.name = j := toolRegistryFind_name hjf
        simp only [hdj]
        intro hjb
        have hji : j = i := by simpa using hjb
        subst hji
        exact hnd2.1 hj
      simp only [List.filter_cons]
      have hbi : (bi.name == i) = true := by
        simp [toolRegistryFind_name hfind]
      rw [if_pos hbi, hrest]
    · have hmem2 : b ∈ is := by
        rcases List.mem_cons.mp hmem with h1 | h2
        · exact absurd h1.symm hib
        · exact h2
      rw [List.filterMap_cons]
      cases hif : toolRegistryFind i with
      | none => exact ih b bi hnd2.2 hfind hmem2
      | some td =>
        have htd : td.name = i := toolRegistryFind_name hif
        simp only [List.filter_cons]
        have : ¬ ((td.name == b) = true) := by
          simp [htd]
          exact hib
        rw [if_neg this]
        exact ih b bi hnd2.2 hfind hmem2

/-! Lemmas about the built-in-preference stage. -/

theorem preferBuiltins_sel_mono : ∀ (rows : List DBTool) (sel : List String)
    (x : String), x ∈ sel → x ∈ (preferBuiltins sel rows).2 := by
  intro rows
  induction rows with
  | nil => intro sel x hx; exact hx
  | cons r rs ih =>
    intro sel x hx
    unfold preferBuiltins
    by_cases h1 : (r.name == "") = true
    · rw [if_pos h1]; exact ih sel x hx
    · rw [if_neg h1]
      by_cases h2 : sel.contains r.name = true
      · rw [if_pos h2]; exact ih sel x hx
      · rw [if_neg h2]
        cases hf : toolRegistryFind r.name with
        | none => exact ih sel x hx
        | some td => exact ih (r.name :: sel) x (List.mem_cons_of_mem _ hx)

theorem preferBuiltins_count : ∀ (rows : List DBTool) (sel : List String),
    (preferBuiltins sel rows).1.length +
      (rows.filter (fun r => !((preferBuiltins sel rows).2.contains r.name))).length ≤
      rows.length := by
  intro rows
  induction rows with
  | nil => intro sel; simp [preferBuiltins]
  | cons r rs ih =>
    intro sel
    unfold preferBuiltins
    by_cases h1 : (r.name == "") = true
    · rw [if_pos h1]
      simp only [List.filter_cons, List.length_cons]
      have hh := ih sel
      split
      · simp only [List.length_cons]; omega
      · omega
    · rw [if_neg h1]
      by_cases h2 : sel.contains r.name = true
      · rw [if_pos h2]
        simp only [List.filter_cons, List.length_cons]
        have hh := ih sel
        split
        · simp only [List.length_cons]; omega
        · omega
      · rw [if_neg h2]
        cases hf : toolRegistryFind r.name with
        | none =>
          simp only [List.filter_cons, List.length_cons]
          have hh := ih sel
          split
          · simp only [List.length_cons]; omega
          · omega
        | some td =>
          have hmem : r.name ∈ (preferBuiltins (r.name :: sel) rs).2 :=
            preferBuiltins_sel_mono rs (r.name :: sel) r.name (List.mem_cons_self _ _)
          have hcontains : ((preferBuiltins (r.name :: sel) rs).2.contains r.name) = true :=
            List.elem_iff.mpr hmem
          simp only [List.filter_cons, hcontains, Bool.not_true, List.length_cons]
          have hh := ih (r.name :: sel)
          simp only [Bool.false_eq_true, if_false]
          simp only [List.elem_eq_mem] at hh ⊢
          omega

theorem preferBuiltins_names : ∀ (rows : List DBTool) (sel : List String),
    ((preferBuiltins sel rows).1.map (fun d => d.name)).Nodup ∧
    (∀ n ∈ (preferBuiltins sel rows).1.map (fun d => d.name),
      n ∉ sel ∧ n ∈ (preferBuiltins sel rows).2) := by
  intro rows
  induction rows with
  | nil => intro sel; simp [preferBuiltins]
  | cons r rs ih =>
    intro sel
    unfold preferBuiltins
    by_cases h1 : (r.name == "") = true
    · rw [if_pos h1]; exact ih sel
    · rw [if_neg h1]
      by_cases h2 : sel.contains r.name = true
      · rw [if_pos h2]; exact ih sel
      · rw [if_neg h2]
        cases hf : toolRegistryFind r.name with
        | none => exact ih sel
        | some td =>
          obtain ⟨ihnd, ihmem⟩ := ih (r.name :: sel)
          have htd : td.name = r.name := toolRegistryFind_name hf
          constructor
          · simp only [List.map_cons]
            refine List.nodup_cons.mpr ⟨fun hmem => ?_, ihnd⟩
            rw [htd] at hmem
            exact (ihmem r.name hmem).1 (List.mem_cons_self _ _)
          · intro n hn
            simp only [List.map_cons, List.mem_cons] at hn
            rcases hn with hn1 | hn2
            · subst hn1
              rw [htd]
              refine ⟨fun hs => h2 (List.elem_iff.mpr hs), ?_⟩
              exact preferBuiltins_sel_mono rs (r.name :: sel) r.name
                (List.mem_cons_self _ _)
            · obtain ⟨hns, hnf⟩ := ihmem n hn2
              exact ⟨fun hs => hns (List.mem_cons_of_mem _ hs), hnf⟩

/-! Generic counting lemmas. -/

theorem filter_or_length_le {α : Type} (l : List α) (p q : α → Bool) :
    (l.filter (fun x => p x || q x)).length ≤
      (l.filter p).length + (l.filter q).length := by
  induction l with
  | nil => simp
  | cons x xs ih =>
    simp only [List.filter_cons]
    by_cases hp : p x = true <;> by_cases hq : q x = true <;>
      simp [hp, hq] <;> omega

theorem length_le_of_map_nodup_subset {α β : Type} (l : List α) (f : α → β)
    (u : List β) (hnd : (l.map f).Nodup) (hsub : ∀ x ∈ l, f x ∈ u) :
    l.length ≤ u.length := by
  have hsub2 : l.map f ⊆ u := by
    intro b hb
    obtain ⟨a, ha, hab⟩ := List.mem_map.mp hb
    exact hab ▸ hsub a ha
  have := (hnd.subperm hsub2).length_le
  simpa using this

/-! Lemmas about the names of constructed custom tools. -/

theorem bindPair_ok {e : Except Unit ToolDef} {lg : List ToolLogEv}
    {out : ToolDef × List ToolLogEv}
    (h : (do let d ← e; Except.ok (d, lg)) = Except.ok out) :
    ∃ d, e = Except.ok d ∧ out = (d, lg) := by
  cases e with
  | error u => exact Except.noConfusion h
  | ok d =>
    refine ⟨d, rfl, ?_⟩
    have h2 : (d, lg) = out := by exact Except.ok.inj h
    exact h2.symm

theorem fallbackToolFromDB_name {t : DBTool} {d : ToolDef}
    (h : fallbackToolFromDB t = Except.ok d) : d.name = t.name := by
  unfold fallbackToolFromDB at h
  cases hp : jsonParseDoc t.parameters with
  | error u => rw [hp] at h; exact Except.noConfusion h
  | ok p =>
    rw [hp] at h
    have h2 := Except.ok.inj h
    rw [← h2]

theorem createToolFromDB_name {flag : Bool} {t : DBTool}
    {out : ToolDef × List ToolLogEv} (hb : BlobNameOwn t)
    (h : createToolFromDB flag t = Except.ok out) : out.1.name = t.name := by
  unfold createToolFromDB at h
  cases hs : t.schema with
  | none =>
    rw [hs] at h
    obtain ⟨d, hd, hout⟩ := bindPair_ok h
    rw [hout]
    exact fallbackToolFromDB_name hd
  | some doc =>
    rw [hs] at h
    dsimp only at h
    by_cases htr : storedDocTruthy doc = true
    · rw [if_pos htr] at h
      cases hpd : jsonParseDoc doc with
      | error u => rw [hpd] at h; exact Except.noConfusion h
      | ok blob =>
        rw [hpd] at h
        dsimp only at h
        cases hi : t.implementation with
        | none =>
          rw [hi] at h
          obtain ⟨d, hd, hout⟩ := bindPair_ok h
          rw [hout]
          exact fallbackToolFromDB_name hd
        | some impl =>
          rw [hi] at h
          cases impl with
          | compilable tag =>
            cases flag with
            | false =>
              obtain ⟨d, hd, hout⟩ := bindPair_ok h
              rw [hout]
              exact fallbackToolFromDB_name hd
            | true =>
              have h2 := Except.ok.inj h
              rw [← h2]
              exact hb doc blob hs hpd
          | uncompilable tag =>
            cases flag with
            | false =>
              obtain ⟨d, hd, hout⟩ := bindPair_ok h
              rw [hout]
              exact fallbackToolFromDB_name hd
            | true =>
              obtain ⟨d, hd, hout⟩ := bindPair_ok h
              rw [hout]
              exact fallbackToolFromDB_name hd
    · rw [if_neg htr] at h
      obtain ⟨d, hd, hout⟩ := bindPair_ok h
      rw [hout]
      exact fallbackToolFromDB_name hd

theorem resolveCustomTools_names : ∀ (flag : Bool) (rows : List DBTool)
    (outs : List (ToolDef × List ToolLogEv)),
    (∀ t ∈ rows, BlobNameOwn t) → resolveCustomTools flag rows = Except.ok outs →
    outs.map (fun o => o.1.name) = rows.map (fun r => r.name) := by
  intro flag rows
  induction rows with
  | nil =>
    intro outs _ h
    have h2 := Except.ok.inj h
    rw [← h2]
    rfl
  | cons t ts ih =>
    intro outs hblob h
    unfold resolveCustomTools at h
    cases hc : createToolFromDB flag t with
    | error e => rw [hc] at h; exact Except.noConfusion h
    | ok d =>
      rw [hc] at h
      dsimp only at h
      cases hr : resolveCustomTools flag ts with
      | error e => rw [hr] at h; exact Except.noConfusion h
      | ok rest =>
        rw [hr] at h
        have h2 := Except.ok.inj h
        rw [← h2]
        simp only [List.map_cons]
        rw [createToolFromDB_name (hblob t (List.mem_cons_self _ _)) hc,
            ih rest (fun x hx => hblob x (List.mem_cons_of_mem _ hx)) hr]

/-- Step-3 additions never duplicate an already-selected name. -/
theorem preferBuiltins_filter_out : ∀ (rows : List DBTool) (sel : List String)
    (b : String), b ∈ sel →
    (preferBuiltins sel rows).1.filter (fun d => d.name == b) = [] := by
  intro rows
  induction rows with
  | nil => intro sel b _; rfl
  | cons r rs ih =>
    intro sel b hb
    unfold preferBuiltins
    by_cases h1 : (r.name == "") = true
    · rw [if_pos h1]; exact ih sel b hb
    · rw [if_neg h1]
      by_cases h2 : sel.contains r.name = true
      · rw [if_pos h2]; exact ih sel b hb
      · rw [if_neg h2]
        cases hf : toolRegistryFind r.name with
        | none => exact ih sel b hb
        | some td =>
          simp only [List.filter_cons]
          have htd : td.name = r.name := toolRegistryFind_name hf
          have hne : ¬((td.name == b) = true) := by
            rw [htd]
            simp only [beq_iff_eq]
            intro heq
            subst heq
            exact h2 (List.elem_iff.mpr hb)
          rw [if_neg hne]
          exact ih (r.name :: sel) b (List.mem_cons_of_mem _ hb)

/-- Claim C3: for every identifier list containing both a built-in tool's
canonical name and an identifier of a same-named database row, the resolver
returns exactly one definition for that name, namely the built-in registry
entry.  The store hypotheses are the data invariants of the application:
stored schema blobs name their own row. -/
theorem c3_builtin_wins_over_same_named_row :
    ∀ (flag : Bool) (db : List DBTool) (toolIds : List String)
      (l : List ToolDef) (lg : List ToolLogEv) (b : String) (bi : ToolDef)
      (rid : String) (r : DBTool),
      toolRegistryFind b = some bi →
      b ∈ toolIds → rid ∈ toolIds →
      r ∈ db → r.id = rid → r.name = b →
      (∀ x ∈ db, BlobNameOwn x) →
      loadToolsForAgent flag db toolIds = Except.ok (l, lg) →
      l.filter (fun d => d.name == b) = [bi] := by
  intro flag db toolIds l lg b bi rid r hfind hbmem hridmem hrdb hrid hrname hblob hload
  have hbne : b ≠ "" := toolRegistryFind_ne_empty hfind
  have hbu : b ∈ uniqueIdsOf toolIds := mem_uniqueIdsOf.mpr ⟨hbmem, hbne⟩
  have hbsel : b ∈ selected0Of toolIds := mem_selected0Of hbu hfind
  unfold loadToolsForAgent at hload
  by_cases hin : toolIds.isEmpty
  · rw [List.isEmpty_iff.mp hin] at hbmem
    simp at hbmem
  · rw [if_neg hin] at hload
    cases hres : resolveCustomTools flag (customRowsOf db toolIds) with
    | error e => rw [hres] at hload; exact Except.noConfusion hload
    | ok customs =>
      rw [hres] at hload
      have h2 := Except.ok.inj hload
      have hl : getToolsByIds (uniqueIdsOf toolIds) ++ (pbOf db toolIds).1 ++
          customs.map Prod.fst = l := congrArg Prod.fst h2
      rw [← hl]
      rw [List.filter_append, List.filter_append]
      have hpart1 : (getToolsByIds (uniqueIdsOf toolIds)).filter
          (fun d => d.name == b) = [bi] :=
        getToolsByIds_filter_name _ b bi (uniqueIdsOf_nodup _) hfind hbu
      have hpart2 : ((pbOf db toolIds).1).filter (fun d => d.name == b) = [] :=
        preferBuiltins_filter_out _ _ b hbsel
      have hb2 : b ∈ (pbOf db toolIds).2 :=
        preferBuiltins_sel_mono _ _ b hbsel
      have hpart3 : (customs.map Prod.fst).filter (fun d => d.name == b) = [] := by
        rw [List.filter_eq_nil_iff]
        intro d hd
        have hnames := resolveCustomTools_names flag _ customs
          (fun t ht => hblob t (customRowsOf_subset _ _ t ht)) hres
        obtain ⟨o, ho, hod⟩ := List.mem_map.mp hd
        have hmem2 : o.1.name ∈ customs.map (fun o => o.1.name) :=
          List.mem_map_of_mem _ ho
        rw [hnames] at hmem2
        obtain ⟨t, ht, htn⟩ := List.mem_map.mp hmem2
        have hcond := (List.mem_filter.mp ht).2
        simp only [Bool.not_eq_true', List.elem_eq_mem, decide_eq_false_iff_not] at hcond
        simp only [beq_iff_eq]
        intro hdb
        rw [← hod] at hdb
        rw [← htn] at hdb
        rw [hdb] at hcond
        exact hcond hb2
      rw [hpart1, hpart2, hpart3]
      simp

/-- Witness for C3: a store with one custom row named `calculator` and the
identifier list carrying both the built-in name and the row id resolves to
exactly the built-in calculator definition. -/
theorem c3_builtin_wins_over_same_named_row_witness :
    ([calculatorTool].filter (fun d => d.name == "calculator")) = [calculatorTool] := by
  have h := c3_builtin_wins_over_same_named_row false
    [{ id := "row9", name := "calculator", parameters := .sval (.jobj .nil) }]
    ["calculator", "row9"] [calculatorTool] [] "calculator" calculatorTool
    "row9" { id := "row9", name := "calculator", parameters := .sval (.jobj .nil) }
    rfl (by simp) (by simp) (by simp) rfl rfl
    (by
      intro x hx
      simp only [List.mem_singleton] at hx
      subst hx
      intro doc blob hdoc hblob
      exact absurd hdoc (by simp))
    rfl
  exact h

/-! Lemmas for the size and name-uniqueness of the resolver's output. -/

theorem customRowsOf_sublist (db : List DBTool) (ids : List String) :
    (customRowsOf db ids).Sublist db := by
  unfold customRowsOf dbToolsOf
  split
  · simp
  · exact ((List.filter_sublist _).trans (List.filter_sublist db))

theorem mem_customRowsOf_not_sel {db : List DBTool} {ids : List String} {t : DBTool}
    (ht : t ∈ customRowsOf db ids) : t.name ∉ (pbOf db ids).2 := by
  have hcond := (List.mem_filter.mp ht).2
  simpa using hcond

theorem dbToolsOf_length_le (db : List DBTool) (toolIds : List String)
    (hid : (db.map (fun r => r.id)).Nodup)
    (hname : (db.map (fun r => r.name)).Nodup) :
    (dbToolsOf db toolIds).length ≤ 2 * (unresolvedOf toolIds).length := by
  unfold dbToolsOf
  split
  · simp
  · have h1 := filter_or_length_le db
      (fun r => (unresolvedOf toolIds).contains r.id)
      (fun r => (unresolvedOf toolIds).contains r.name)
    have h2 : (db.filter (fun r => (unresolvedOf toolIds).contains r.id)).length ≤
        (unresolvedOf toolIds).length := by
      refine length_le_of_map_nodup_subset _ (fun r => r.id) _ ?_ ?_
      · exact hid.sublist ((List.filter_sublist db).map _)
      · intro x hx
        exact List.elem_iff.mp (List.mem_filter.mp hx).2
    have h3 : (db.filter (fun r => (unresolvedOf toolIds).contains r.name)).length ≤
        (unresolvedOf toolIds).length := by
      refine length_le_of_map_nodup_subset _ (fun r => r.name) _ ?_ ?_
      · exact hname.sublist ((List.filter_sublist db).map _)
      · intro x hx
        exact List.elem_iff.mp (List.mem_filter.mp hx).2
    omega

theorem selected0_unresolved_partition (toolIds : List String) :
    (selected0Of toolIds).length + (unresolvedOf toolIds).length =
      (uniqueIdsOf toolIds).length := by
  have hcong : unresolvedOf toolIds =
      (uniqueIdsOf toolIds).filter (fun i => !((toolRegistryFind i).isSome)) := by
    unfold unresolvedOf
    apply List.filter_congr
    intro x hx
    congr 1
    rw [selected0Of_eq]
    by_cases hsome : (toolRegistryFind x).isSome = true
    · have : x ∈ (uniqueIdsOf toolIds).filter (fun i => (toolRegistryFind i).isSome) :=
        List.mem_filter.mpr ⟨hx, hsome⟩
      simp [List.elem_eq_mem, this, hsome]
    · have : x ∉ (uniqueIdsOf toolIds).filter (fun i => (toolRegistryFind i).isSome) := by
        intro hmem
        exact hsome (List.mem_filter.mp hmem).2
      simp [List.elem_eq_mem, this, hsome]
  rw [selected0Of_eq, hcong]
  exact (List.length_eq_length_filter_add _).symm

/-- Counterexample to claim C9: one identifier can fetch two distinct rows
— one matched by id, one matched by name — so the returned list is longer
than the number of distinct non-empty identifiers. -/
theorem c9_one_identifier_two_tools :
    (loadToolsForAgent false
        [ { id := "x", name := "foo", parameters := .sval (.jobj .nil) },
          { id := "y", name := "x", parameters := .sval (.jobj .nil) } ]
        ["x"]).map (fun p => p.1.length) = Except.ok 2 ∧
    (uniqueIdsOf ["x"]).length = 1 :=
  ⟨rfl, rfl⟩

/-- Claim C9 (amended): under the store invariants — row ids unique, row
names unique, schema blobs naming their own rows — the resolver's output
still contains at most one definition per canonical name, but its length is
only bounded by twice the number of distinct non-empty identifiers (each
identifier can match one row by id and another by name), not by that number
itself. -/
theorem c9_amended_nodup_names_and_length_bound :
    ∀ (flag : Bool) (db : List DBTool) (toolIds : List String)
      (l : List ToolDef) (lg : List ToolLogEv),
      (db.map (fun r => r.id)).Nodup →
      (db.map (fun r => r.name)).Nodup →
      (∀ r ∈ db, BlobNameOwn r) →
      loadToolsForAgent flag db toolIds = Except.ok (l, lg) →
      (l.map (fun d => d.name)).Nodup ∧
      l.length ≤ 2 * (uniqueIdsOf toolIds).length := by
  intro flag db toolIds l lg hid hname hblob hload
  unfold loadToolsForAgent at hload
  by_cases hin : toolIds.isEmpty
  · rw [if_pos hin] at hload
    have h2 := Except.ok.inj hload
    have hl : [] = l := congrArg Prod.fst h2
    rw [← hl]
    simp
  · rw [if_neg hin] at hload
    cases hres : resolveCustomTools flag (customRowsOf db toolIds) with
    | error e => rw [hres] at hload; exact Except.noConfusion hload
    | ok customs =>
      rw [hres] at hload
      have h2 := Except.ok.inj hload
      have hl : getToolsByIds (uniqueIdsOf toolIds) ++ (pbOf db toolIds).1 ++
          customs.map Prod.fst = l := congrArg Prod.fst h2
      rw [← hl]
      have hcnames : (customs.map Prod.fst).map (fun d => d.name) =
          (customRowsOf db toolIds).map (fun r => r.name) := by
        rw [List.map_map]
        exact resolveCustomTools_names flag _ customs
          (fun t ht => hblob t (customRowsOf_subset _ _ t ht)) hres
      have hpb := preferBuiltins_names (dbToolsOf db toolIds) (selected0Of toolIds)
      constructor
      · -- at most one definition per canonical name
        rw [List.map_append, List.map_append]
        rw [List.nodup_append, List.nodup_append]
        refine ⟨⟨?_, ?_, ?_⟩, ?_, ?_⟩
        · -- built-in names are the deduped hit identifiers
          rw [getToolsByIds_names]
          exact (uniqueIdsOf_nodup toolIds).filter _
        · exact hpb.1
        · -- built-ins vs step-3 additions
          intro a ha hb
          have hsel : a ∈ selected0Of toolIds := ha
          exact ((hpb.2 a hb).1) hsel
        · -- custom names are distinct row names
          rw [hcnames]
          exact hname.sublist ((customRowsOf_sublist db toolIds).map _)
        · -- the first two blocks vs customs
          intro a ha hc
          rw [hcnames] at hc
          obtain ⟨t, ht, htn⟩ := List.mem_map.mp hc
          have hnot := mem_customRowsOf_not_sel ht
          rw [htn] at hnot
          rcases List.mem_append.mp ha with h1 | h2
          · have hsel : a ∈ selected0Of toolIds := h1
            exact hnot (preferBuiltins_sel_mono _ _ a hsel)
          · exact hnot ((hpb.2 a h2).2)
      · -- length bound
        simp only [List.length_append, List.length_map]
        have hb1 : (getToolsByIds (uniqueIdsOf toolIds)).length =
            (selected0Of toolIds).length := by
          unfold selected0Of
          simp
        have hcl : customs.length = (customRowsOf db toolIds).length := by
          have := congrArg List.length hcnames
          simpa using this
        have hcount := preferBuiltins_count (dbToolsOf db toolIds) (selected0Of toolIds)
        have hcount2 : (pbOf db toolIds).1.length +
            (customRowsOf db toolIds).length ≤ (dbToolsOf db toolIds).length := hcount
        have hdbl := dbToolsOf_length_le db toolIds hid hname
        have hpart := selected0_unresolved_partition toolIds
        omega

/-- Witness for the amended C9 at the counterexample store: the two
returned definitions carry distinct names and respect the doubled bound. -/
theorem c9_amended_nodup_names_and_length_bound_witness :
    (([ { name := "foo", description := "", parameters := ZodTy.zunknown,
          execute := .echoArgs "foo" },
        { name := "x", description := "", parameters := ZodTy.zunknown,
          execute := .echoArgs "x" } ] : List ToolDef).map (fun d => d.name)).Nodup ∧
    ([ { name := "foo", description := "", parameters := ZodTy.zunknown,
         execute := .echoArgs "foo" },
       { name := "x", description := "", parameters := ZodTy.zunknown,
         execute := .echoArgs "x" } ] : List ToolDef).length ≤
      2 * (uniqueIdsOf ["x"]).length := by
  refine c9_amended_nodup_names_and_length_bound false
    [ { id := "x", name := "foo", parameters := .sval (.jobj .nil) },
      { id := "y", name := "x", parameters := .sval (.jobj .nil) } ]
    ["x"] _ [] (by decide) (by decide) ?_ rfl
  intro r hr
  intro doc blob hdoc hblob
  rcases List.mem_cons.mp hr with h1 | h2
  · subst h1; exact absurd hdoc (by simp)
  · simp only [List.mem_singleton] at h2
    subst h2; exact absurd hdoc (by simp)

end JafVerify
